import Mathlib

/-!
# Verification of the level-pivot key-pattern engine

A shallow embedding, over `List Char` strings, of the core of the
level-pivot library: the key-pattern micro-grammar (`key_pattern.cpp`),
the generic key parser/builder (`key_parser.cpp`), the uniform-delimiter
fast path (`simd_parser.hpp`), the pivot scanner (`pivot_scanner.cpp`),
the writer (`writer.cpp`) and schema inference (`schema_discovery.cpp`).
Strings are modelled as `List Char` (byte strings); every definition is
translated from the corresponding C++ source.
-/

namespace LevelPivot

/-- A string in the model: C++ `std::string` / `std::string_view` as a char list. -/
abbrev Str := List Char

/-- `PatternSegment` from `key_pattern.hpp`: `LiteralSegment` / `CaptureSegment` /
`AttrSegment`. -/
inductive Seg where
  | lit : Str → Seg
  | cap : Str → Seg
  | attrSeg : Seg
deriving DecidableEq, Repr

/-- A segment is variable when it is not a literal (captures and attr),
mirroring `!std::holds_alternative<LiteralSegment>(...)`. -/
def Seg.isVar : Seg → Bool
  | .lit _ => false
  | _ => true

/-- `KeyPattern::capture_names()`: names of capture segments in order. -/
def captureNames (segs : List Seg) : List Str :=
  segs.filterMap fun s => match s with
    | .cap n => some n
    | _ => none

/-- `KeyPattern::capture_count()`. -/
def captureCount (segs : List Seg) : Nat :=
  (captureNames segs).length

/-- Number of attr segments in a pattern (validated patterns have exactly
one: `has_attr_` plus the multiple-attr check). -/
def attrSegCount (segs : List Seg) : Nat :=
  (segs.filter fun s => s = Seg.attrSeg).length

/-- `KeyPattern::compute_literal_prefix()`: concatenation of leading literal
segments, stopping at the first variable segment. -/
def literalPrefix : List Seg → Str
  | [] => []
  | .lit t :: rest => t ++ literalPrefix rest
  | _ => []

/-- `std::string_view::find(needle, 0)` on char lists: index of the first
occurrence of `needle`, or `none` (`npos`). An empty needle is found at 0,
as in C++. -/
def findSub (needle : Str) : Str → Option Nat
  | [] => if needle = [] then some 0 else none
  | c :: t =>
    if needle.isPrefixOf (c :: t) then some 0
    else (findSub needle t).map (· + 1)

/-- Result of `parse_impl`: capture values in order, plus the attr value.
`attr_name` in the C++ `ParsedKey` is default-initialised to the empty string
and assigned when an `AttrSegment` is processed; we track it as an `Option`
(`none` = never assigned) and read it back with a default. -/
structure ParsedK where
  captures : List Str
  attrv : Option Str
deriving DecidableEq, Repr

/-- `parse_impl` (`key_parser.cpp` lines 96-168): walk the segments, matching
literals exactly and delimiting each variable segment by the next literal
(found by substring search) or end of input; empty variable values and
unconsumed input are rejected.

A variable segment followed directly by another variable segment is
unreachable for validated patterns (the C++ `std::get<LiteralSegment>` would
throw); we return `none` in that case. -/
def parseSegs : List Seg → Str → Option ParsedK
  | [], key => if key = [] then some ⟨[], none⟩ else none
  | .lit t :: rest, key =>
    if t.isPrefixOf key then parseSegs rest (key.drop t.length) else none
  | .cap _ :: rest, key =>
    match rest with
    | [] =>
      if key = [] then none else some ⟨[key], none⟩
    | .lit t :: _ =>
      match findSub t key with
      | none => none
      | some i =>
        if i = 0 then none
        else (parseSegs rest (key.drop i)).map fun p =>
          ⟨key.take i :: p.captures, p.attrv⟩
    | _ => none
  | .attrSeg :: rest, key =>
    match rest with
    | [] =>
      if key = [] then none else some ⟨[], some key⟩
    | .lit t :: _ =>
      match findSub t key with
      | none => none
      | some i =>
        if i = 0 then none
        else (parseSegs rest (key.drop i)).map fun p =>
          ⟨p.captures, (p.attrv).getD (key.take i) |> some⟩
    | _ => none

/-- `ParsedKey` as returned by `KeyParser::parse`: the attr field with its
C++ default (empty string when no attr segment was processed). -/
structure ParsedKey where
  captures : List Str
  attrName : Str
deriving DecidableEq, Repr

/-- `KeyParser::parse` / generic `parse_view`: run `parse_impl` and read
the attr field (empty if never assigned, as the C++ default). -/
def kparse (segs : List Seg) (key : Str) : Option ParsedKey :=
  (parseSegs segs key).map fun p => ⟨p.captures, p.attrv.getD []⟩

/-- Errors raised by `KeyParser::build` (`std::invalid_argument`). -/
inductive BuildErr where
  | wrongCount
  | emptyAttr
  | emptyCapture
deriving DecidableEq, Repr

/-- The segment walk inside `KeyParser::build`: concatenate literals,
substitute capture values positionally (rejecting empty ones), substitute
the attr name at every attr segment. -/
def buildWalk : List Seg → List Str → Str → Except BuildErr Str
  | [], _, _ => .ok []
  | .lit t :: rest, vs, a => (buildWalk rest vs a).map (t ++ ·)
  | .cap _ :: rest, vs, a =>
    match vs with
    | [] => .error .wrongCount
    | v :: vs' =>
      if v = [] then .error .emptyCapture
      else (buildWalk rest vs' a).map (v ++ ·)
  | .attrSeg :: rest, vs, a => (buildWalk rest vs a).map (a ++ ·)

/-- `KeyParser::build` (`key_parser.cpp` lines 206-241): check the capture
arity and non-empty attr, then walk the segments substituting values.
The C++ reads `capture_values[capture_idx]` positionally; the arity check
guarantees the walk never runs out of values. -/
def build (segs : List Seg) (vs : List Str) (a : Str) : Except BuildErr Str :=
  if vs.length ≠ captureCount segs then .error .wrongCount
  else if a = [] then .error .emptyAttr
  else buildWalk segs vs a

/-- `KeyParser::build_prefix(capture_values)` (`key_parser.cpp` lines
274-297): literals are appended, capture values substituted while supplied,
stopping at the first unsupplied capture or at the attr segment. -/
def buildPrefix : List Seg → List Str → Str
  | [], _ => []
  | .lit t :: rest, vs => t ++ buildPrefix rest vs
  | .cap _ :: rest, vs =>
    match vs with
    | [] => []
    | v :: vs' => v ++ buildPrefix rest vs'
  | .attrSeg :: _, _ => []

/-- The delimiter-safety condition on a variable value `x` relative to the
segments following its own segment: when the next segment is a literal
`t`, the first occurrence of `t` in `x ++ t` must be at `x.length` (in
particular, `x` must not contain `t`, and no suffix of `x` may start an
occurrence that overlaps into `t`); a value at the end of the pattern is
unconstrained, and a following variable segment (an invalid pattern) is
never safe. -/
def nextLitClean (x : Str) : List Seg → Bool
  | .lit t :: _ => findSub t (x ++ t) == some x.length
  | [] => true
  | _ => false

/-- The delimiter-safety condition for a whole round trip: each capture
value, and the attr name, is `nextLitClean` with respect to the segments
after its own segment. -/
def cleanCond : List Seg → List Str → Str → Bool
  | [], _, _ => true
  | .lit _ :: rest, vs, a => cleanCond rest vs a
  | .cap _ :: rest, vs, a =>
    match vs with
    | [] => true
    | v :: vs' => nextLitClean v rest && cleanCond rest vs' a
  | .attrSeg :: rest, vs, a => nextLitClean a rest && cleanCond rest vs a

/-! ## The uniform-delimiter fast path (`simd_parser.hpp`) -/

/-- Fold inside `KeyParser::try_get_uniform_delimiter`: the `delimiter`
accumulator over the literal texts considered as delimiters; an empty
accumulator takes the next literal, a mismatch aborts, and an empty final
delimiter yields `nullopt`. -/
def udFold : List Str → Str → Option Str
  | [], d => if d = [] then none else some d
  | l :: ls, d =>
    if d = [] then udFold ls l
    else if d = l then udFold ls d
    else none

/-- `KeyParser::try_get_uniform_delimiter` (`key_parser.cpp` lines 316-345):
a literal at index 0 is skipped as the prefix (the `first_literal && i == 0`
test only ever fires there); every other literal must be one identical
delimiter. -/
def uniformDelim (segs : List Seg) : Option Str :=
  let body := match segs with
    | .lit _ :: rest => rest
    | _ => segs
  udFold (body.filterMap fun s => match s with
    | .lit t => some t
    | _ => none) []

/-- The state of a constructed `SimdKeyParser`: prefix, delimiter and
capture count (`num_delimiters_` is `nCaps + 1`). -/
structure Simd where
  pfx : Str
  delim : Str
  nCaps : Nat
deriving DecidableEq, Repr

/-- `find_delimiters_scalar_fast`: positions of non-overlapping occurrences
of the delimiter from `pos` on, recording at most `maxCount` of them (the
loop guard `count < max_count`, used as fuel here). The SSE2/AVX2 variants
compute the same positions for the delimiters that arise from patterns. -/
def findDelimsScalar (delim key : Str) : Nat → Nat → List Nat
  | _, 0 => []
  | pos, fuel + 1 =>
    match findSub delim (key.drop pos) with
    | none => []
    | some i => (pos + i) :: findDelimsScalar delim key (pos + i + delim.length) fuel

/-- The capture-extraction loop of `SimdKeyParser::parse_fast`: `pos` starts
after the first delimiter; each capture ends at the next recorded delimiter
position (`end <= pos` means an empty capture and fails); returns the
captures and the final cursor. -/
def extractCaps (key : Str) (dlen : Nat) : Nat → List Nat → Option (List Str × Nat)
  | pos, [] => some ([], pos)
  | pos, e :: es =>
    if e ≤ pos then none
    else (extractCaps key dlen (e + dlen) es).map fun r =>
      ((key.drop pos).take (e - pos) :: r.1, r.2)

/-- `SimdKeyParser::parse_fast` (`simd_parser.hpp` lines 125-176): size and
prefix checks, delimiter scan (at most `num_delimiters_ + 1` recorded,
exactly `num_delimiters_` required), first delimiter must sit right after
the prefix, then capture extraction and the non-empty attr tail. -/
def parseFast (s : Simd) (key : Str) : Option (List Str × Str) :=
  if key.length < s.pfx.length + s.delim.length * (s.nCaps + 1) then none
  else if ¬ s.pfx.isPrefixOf key then none
  else
    let ds := findDelimsScalar s.delim key s.pfx.length (s.nCaps + 2)
    if ds.length = s.nCaps + 1 then
      match ds with
      | [] => none
      | d0 :: drest =>
        if d0 ≠ s.pfx.length then none
        else
          match extractCaps key s.delim.length (s.pfx.length + s.delim.length) drest with
          | none => none
          | some (cs, pos) =>
            if pos ≥ key.length then none
            else some (cs, key.drop pos)
    else none

/-- `KeyParser::try_init_simd_parser` (`key_parser.cpp` lines 352-367):
when the pattern has a uniform delimiter, construct the SIMD parser from
the pattern's literal prefix, that delimiter and the capture count. -/
def tryInitSimd (segs : List Seg) : Option Simd :=
  (uniformDelim segs).map fun d => ⟨literalPrefix segs, d, captureCount segs⟩

/-- `KeyParser::parse_view` (`key_parser.cpp` lines 181-199): the SIMD path
when initialised (with no fallback on mismatch), the generic `parse_impl`
otherwise. -/
def parseView (segs : List Seg) (key : Str) : Option ParsedKey :=
  match tryInitSimd segs with
  | some s => (parseFast s key).map fun r => ⟨r.1, r.2⟩
  | none => kparse segs key

/-! ## The pivot scanner (`pivot_scanner.cpp`) -/

/-- Bytewise (lexicographic) ordering on keys, the LevelDB comparator. -/
def strLt : Str → Str → Bool
  | [], [] => false
  | [], _ :: _ => true
  | _ :: _, [] => false
  | a :: as, b :: bs => if a < b then true else if b < a then false else strLt as bs

/-- The scanner's view of a projection: the pattern driving the parser plus
the set of known attr column names (`Projection::has_attr`). -/
structure Proj where
  segs : List Seg
  attrNames : List Str
deriving DecidableEq, Repr

/-- `PivotRow`: identity values in capture order plus the attr map.  The C++
`attr_values` is an `unordered_map`; we model it as an association list
with in-place overwrite (`upsert`), and all claims read it by lookup. -/
structure PivotRow where
  identity : List Str
  attrs : List (Str × Str)
deriving DecidableEq, Repr

/-- `unordered_map` assignment `m[k] = v`: overwrite in place or append. -/
def upsert (k v : Str) : List (Str × Str) → List (Str × Str)
  | [] => [(k, v)]
  | (k', v') :: rest => if k' = k then (k, v) :: rest else (k', v') :: upsert k v rest

/-- `PivotScanner::is_within_prefix_view`. -/
def isWithinPrefix (pfx key : Str) : Bool :=
  pfx = [] || pfx.isPrefixOf key

/-- The mutable scanner state: the iterator (remaining sorted entries),
`current_identity_` and `current_attrs_`. -/
structure ScanSt where
  entries : List (Str × Str)
  cur : Option (List Str)
  attrs : List (Str × Str)
deriving DecidableEq, Repr

/-- The loop of `PivotScanner::next_row` (`pivot_scanner.cpp` lines
68-130), with the iterator, `current_identity_` and `current_attrs_` as
explicit arguments: walk keys, skip unparseable ones, start or extend the
accumulated row, and emit the previous row at an identity change
(crediting the boundary key to the new row) or at end of
range/iteration. -/
def nextRowAux (p : Proj) (pfx : Str) :
    List (Str × Str) → Option (List Str) → List (Str × Str) →
      Option PivotRow × ScanSt
  | [], cur, attrs =>
    match cur with
    | some idv => (some ⟨idv, attrs⟩, ⟨[], none, []⟩)
    | none => (none, ⟨[], none, attrs⟩)
  | (key, v) :: rest, cur, attrs =>
    if ¬ isWithinPrefix pfx key then
      match cur with
      | some idv => (some ⟨idv, attrs⟩, ⟨(key, v) :: rest, none, []⟩)
      | none => (none, ⟨(key, v) :: rest, none, attrs⟩)
    else
      match parseView p.segs key with
      | none => nextRowAux p pfx rest cur attrs
      | some pk =>
        match cur with
        | none =>
          nextRowAux p pfx rest (some pk.captures)
            (if pk.attrName ∈ p.attrNames then upsert pk.attrName v [] else [])
        | some idv =>
          if idv = pk.captures then
            nextRowAux p pfx rest (some idv)
              (if pk.attrName ∈ p.attrNames then upsert pk.attrName v attrs else attrs)
          else
            (some ⟨idv, attrs⟩, ⟨rest, some pk.captures,
              if pk.attrName ∈ p.attrNames then upsert pk.attrName v [] else []⟩)

/-- `PivotScanner::next_row` on the scanner state. -/
def nextRow (p : Proj) (pfx : Str) (st : ScanSt) : Option PivotRow × ScanSt :=
  nextRowAux p pfx st.entries st.cur st.attrs

/-- `PivotScanner::begin_scan(prefix_values)`: compute the seek bound with
`build_prefix` and position the iterator at the first key not below it
(LevelDB `seek`); accumulation state is reset. -/
def beginScan (p : Proj) (store : List (Str × Str)) (prefixValues : List Str) :
    Str × ScanSt :=
  let pfx := buildPrefix p.segs prefixValues
  (pfx, ⟨if pfx = [] then store else store.dropWhile (fun e => strLt e.1 pfx), none, []⟩)

/-- Repeatedly call `next_row` until it reports end-of-stream, collecting
the emitted rows.  `fuel` bounds the number of calls; `entries.length + 1`
always suffices since every call that emits consumes at least the boundary
key or ends the stream. -/
def collectRows (p : Proj) (pfx : Str) : Nat → ScanSt → List PivotRow
  | 0, _ => []
  | fuel + 1, st =>
    match nextRow p pfx st with
    | (none, _) => []
    | (some r, st') => r :: collectRows p pfx fuel st'

/-- A full scan: `begin_scan(prefix_values)` followed by draining `next_row`. -/
def scanAll (p : Proj) (store : List (Str × Str)) (prefixValues : List Str) :
    List PivotRow :=
  let (pfx, st) := beginScan p store prefixValues
  collectRows p pfx (st.entries.length + 1) st

/-! ## The writer (`writer.cpp`) -/

/-- The loop body of `Writer::find_keys_for_identity` (lines 241-259):
iterate while the key stays within the prefix, keep keys whose
`parse_view` yields the requested identity. -/
def fkLoop (segs : List Seg) (pfx : Str) (idv : List Str) : List (Str × Str) → List Str
  | [] => []
  | (key, _) :: rest =>
    if pfx ≠ [] ∧ ¬ pfx.isPrefixOf key then []
    else
      (match parseView segs key with
       | some pk => if pk.captures = idv then [key] else []
       | none => []) ++ fkLoop segs pfx idv rest

/-- `Writer::find_keys_for_identity` (`writer.cpp` lines 225-262): seek to
`build_prefix(identity_values)` and collect matching keys. -/
def findKeysForIdentity (segs : List Seg) (store : List (Str × Str))
    (idv : List Str) : List Str :=
  let pfx := buildPrefix segs idv
  let it := if pfx = [] then store else store.dropWhile (fun e => strLt e.1 pfx)
  fkLoop segs pfx idv it

/-- A store mutation issued by the writer (`do_put` / `do_del`). -/
inductive Op where
  | put : Str → Str → Op
  | del : Str → Op
deriving DecidableEq, Repr

/-- `Writer::remove_by_identity` (`writer.cpp` lines 153-165): one delete
per key found by the identity scan. -/
def removeByIdentity (segs : List Seg) (store : List (Str × Str))
    (idv : List Str) : List Op :=
  (findKeysForIdentity segs store idv).map Op.del

/-- `ColumnDef` as the writer uses it: name and 1-based `attnum`.  The
logical type is consumed only by the external `TypeConverter` and is not
modelled (values are carried as strings). -/
structure Column where
  name : Str
  attnum : Nat
deriving DecidableEq, Repr

/-- The writer's view of a projection: the pattern, the full column list
(for `Projection::column(name)`) and `Projection::attr_columns()` in
column order. -/
structure WProj where
  segs : List Seg
  cols : List Column
  attrCols : List Column
deriving DecidableEq, Repr

/-- Errors surfaced by writer operations (`LevelPivotError` /
`std::invalid_argument` from `build`). -/
inductive WriteErr where
  | nullIdentity
  | missingColumn
  | buildFailed
deriving DecidableEq, Repr

/-- A row image handed to the writer: `Datum* values` plus `bool* nulls`,
indexed by `attnum - 1`; `none` is a SQL NULL.  `TypeConverter` string
marshalling is external and modelled as the identity. -/
abbrev RowImage := Nat → Option Str

/-- The loop of `Writer::extract_identity`: one value per capture name (in
pattern order), looked up by column name; a NULL cell becomes the empty
string, a missing column aborts. -/
def extractIdentityGo (cols : List Column) (row : RowImage) :
    List Str → Except WriteErr (List Str)
  | [] => .ok []
  | cn :: rest =>
    match cols.find? (fun c => c.name = cn) with
    | none => .error .missingColumn
    | some c =>
      (extractIdentityGo cols row rest).map (((row (c.attnum - 1)).getD []) :: ·)

/-- `Writer::extract_identity` (`writer.cpp` lines 172-195). -/
def extractIdentity (p : WProj) (row : RowImage) : Except WriteErr (List Str) :=
  extractIdentityGo p.cols row (captureNames p.segs)

/-- `Writer::ExtractedAttrs`. -/
structure ExtractedAttrs where
  values : List (Str × Str)
  nullNames : List Str
deriving DecidableEq, Repr

/-- `Writer::extract_all_attrs` (`writer.cpp` lines 202-216): partition the
attr columns of the row image into non-null (name, value) pairs and null
names.  `values` is an `unordered_map` in C++; column names are unique by
the projection invariant, so an association list in column order carries
the same mapping. -/
def extractAllAttrs (p : WProj) (row : RowImage) : ExtractedAttrs :=
  { values := p.attrCols.filterMap fun c =>
      (row (c.attnum - 1)).map fun v => (c.name, v),
    nullNames := p.attrCols.filterMap fun c =>
      match row (c.attnum - 1) with
      | none => some c.name
      | some _ => none }

/-- The put loop shared by `insert` and `update`: build a key per non-null
attr and emit a put. -/
def putOps (segs : List Seg) (idv : List Str) :
    List (Str × Str) → Except WriteErr (List Op)
  | [] => .ok []
  | (n, v) :: rest =>
    match build segs idv n with
    | .error _ => .error .buildFailed
    | .ok k => (putOps segs idv rest).map (Op.put k v :: ·)

/-- The delete loop of `update`: build a key per now-null attr and emit a
delete. -/
def delOps (segs : List Seg) (idv : List Str) :
    List Str → Except WriteErr (List Op)
  | [] => .ok []
  | n :: rest =>
    match build segs idv n with
    | .error _ => .error .buildFailed
    | .ok k => (delOps segs idv rest).map (Op.del k :: ·)

/-- `Writer::insert` (`writer.cpp` lines 67-90) as the sequence of store
operations it issues: extract the identity, reject any empty (NULL)
identity value before any mutation, then one put per non-null attr. -/
def insertOps (p : WProj) (row : RowImage) : Except WriteErr (List Op) := do
  let idv ← extractIdentity p row
  if idv.any (· = []) then .error .nullIdentity
  else putOps p.segs idv (extractAllAttrs p row).values

/-- `Writer::update` (`writer.cpp` lines 101-141) as the sequence of store
operations it issues: on identity change, delete-then-insert; otherwise one
put per non-null attr of the new image and one delete per null attr of the
new image. -/
def updateOps (p : WProj) (store : List (Str × Str))
    (oldRow newRow : RowImage) : Except WriteErr (List Op) := do
  let oldId ← extractIdentity p oldRow
  let newId ← extractIdentity p newRow
  if oldId ≠ newId then
    let dels := removeByIdentity p.segs store oldId
    let ins ← insertOps p newRow
    .ok (dels ++ ins)
  else
    let ex := extractAllAttrs p newRow
    let puts ← putOps p.segs newId ex.values
    let dels ← delOps p.segs newId ex.nullNames
    .ok (puts ++ dels)

/-- A writer's mutable backing state: the store contents (an association
map updated by `put`/`delete`) and the pending atomic batch. -/
structure WState where
  store : List (Str × Str)
  batch : List Op
deriving DecidableEq, Repr

/-- `put` applied directly to the store map. -/
def storePut (k v : Str) (st : List (Str × Str)) : List (Str × Str) :=
  upsert k v st

/-- `Writer::do_put`: buffered into the batch when batched, applied to the
store otherwise. -/
def doPut (batched : Bool) (k v : Str) (st : WState) : WState :=
  if batched then { st with batch := st.batch ++ [Op.put k v] }
  else { st with store := storePut k v st.store }

/-- The put loop of `Writer::insert` with its mutations applied in program
order; a build failure aborts mid-loop, leaving earlier puts applied, as
the C++ exception would. -/
def insertPutLoop (segs : List Seg) (idv : List Str) (batched : Bool) :
    List (Str × Str) → WState → Except WriteErr Unit × WState
  | [], st => (.ok (), st)
  | (n, v) :: rest, st =>
    match build segs idv n with
    | .error _ => (.error .buildFailed, st)
    | .ok k => insertPutLoop segs idv batched rest (doPut batched k v st)

/-- `Writer::insert` run against the writer state, mirroring statement
order: identity extraction and the NULL-identity check precede every
`do_put`. -/
def insertRun (p : WProj) (batched : Bool) (row : RowImage) (st : WState) :
    Except WriteErr Unit × WState :=
  match extractIdentity p row with
  | .error e => (.error e, st)
  | .ok idv =>
    if idv.any (· = []) then (.error .nullIdentity, st)
    else insertPutLoop p.segs idv batched (extractAllAttrs p row).values st

/-! ## Schema inference (`schema_discovery.cpp`) -/

/-- `SchemaDiscovery::COMMON_DELIMITERS`. -/
def commonDelims : List Str :=
  ["##".toList, "::".toList, "//".toList, "__".toList,
   ":".toList, "/".toList, ".".toList, "-".toList, "_".toList]

/-- The occurrence-counting loop of `infer_pattern` (lines 204-211):
non-overlapping occurrences of `delim` from the cursor on.  The loop
advances by `strlen(delim)` per hit; `fuel` (any value above the key
length) makes the recursion total — every delimiter in
`COMMON_DELIMITERS` is non-empty, so the fuel is never exhausted. -/
def countOccurAux (delim key : Str) : Nat → Nat → Nat
  | _, 0 => 0
  | pos, fuel + 1 =>
    match findSub delim (key.drop pos) with
    | none => 0
    | some i => countOccurAux delim key (pos + i + delim.length) fuel + 1

/-- Occurrences of `delim` in `key`, as `infer_pattern` counts them. -/
def countOccur (delim key : Str) : Nat :=
  countOccurAux delim key 0 (key.length + 1)

/-- Total occurrences of a delimiter across all samples (`delim_counts`). -/
def delimTotal (samples : List Str) (delim : Str) : Nat :=
  samples.foldl (fun acc k => acc + countOccur delim k) 0

/-- The best-delimiter selection (lines 216-223): strict improvement over
the running best, starting from the empty delimiter with count 0.  The C++
iterates an `unordered_map`, so ties are broken in unspecified order; the
model fixes the `COMMON_DELIMITERS` declaration order. -/
def bestDelim (samples : List Str) : Str :=
  ((commonDelims.map fun d => (d, delimTotal samples d)).foldl
    (fun b p => if p.2 > b.2 then p else b) ([], 0)).1

/-- The split loop of `infer_pattern` (lines 231-241 and 253-262): parts
before each delimiter occurrence (empty parts included), with no trailing
empty part when the key ends in the delimiter.  Same fuel scheme as
`countOccurAux`. -/
def splitPartsAux (delim key : Str) : Nat → Nat → List Str
  | _, 0 => []
  | pos, fuel + 1 =>
    match findSub delim (key.drop pos) with
    | none => if pos < key.length then [key.drop pos] else []
    | some i => (key.drop pos).take i :: splitPartsAux delim key (pos + i + delim.length) fuel

/-- Split a key by the chosen delimiter, as `infer_pattern` does. -/
def splitParts (delim key : Str) : List Str :=
  splitPartsAux delim key 0 (key.length + 1)

/-- Position `i` is constant when every same-arity sample agrees with the
first key there (lines 249-273). -/
def isConstantAt (samples : List Str) (d : Str) (parts : List Str) (i : Nat) : Bool :=
  samples.all fun key =>
    let kp := splitParts d key
    kp.length ≠ parts.length || kp.getD i [] = parts.getD i []

/-- The "\x7bcolN\x7d" placeholder text. -/
def colPh (n : Nat) : Str :=
  '{' :: ("col".toList ++ (Nat.repr n).toList) ++ ['}']

/-- The "\x7battr\x7d" placeholder text. -/
def attrPh : Str :=
  '{' :: "attr".toList ++ ['}']

/-- The pattern-reconstruction loop of `infer_pattern` (lines 276-294):
constant positions verbatim, the last position as the attr placeholder when
non-constant, any other non-constant position as a numbered column
placeholder (`var_idx` increments only there). -/
def inferRenderAux (d : Str) : Nat → List (Str × Bool) → Str
  | _, [] => []
  | _, [(p, c)] => if c then p else attrPh
  | varIdx, (p, c) :: rest =>
    (if c then p else colPh varIdx) ++ d ++
      inferRenderAux d (if c then varIdx else varIdx + 1) rest

/-- `SchemaDiscovery::infer_pattern` (`schema_discovery.cpp` lines
185-295) over an already-sampled key list: pick the most frequent
delimiter, split the first key, classify positions, reconstruct a
pattern. -/
def inferPattern (samples : List Str) : Option Str :=
  if samples = [] then none
  else
    let best := bestDelim samples
    if best = [] then none
    else
      let parts := splitParts best (samples.headD [])
      if parts.length < 2 then none
      else
        let isC := (List.range parts.length).map (isConstantAt samples best parts)
        some (inferRenderAux best 1 (parts.zip isC))

/-- Join rendered positions with the delimiter between consecutive ones
(the `if (i > 0) pattern << best_delim` of the reconstruction loop; spec
side). -/
def joinWith (d : Str) : List Str → Str
  | [] => []
  | [x] => x
  | x :: xs => x ++ d ++ joinWith d xs

/-- Total list indexing with a default (a stable restatement of
`List.getD` used by the spec-side rendering rule). -/
def nthD {A : Type} (d : A) : List A → Nat → A
  | [], _ => d
  | x :: _, 0 => x
  | _ :: t, i + 1 => nthD d t i

/-- The claim's rendering of position `i`, spec side: a constant position
verbatim; the final position, when non-constant, as the attr placeholder;
any other non-constant position as a numbered column placeholder whose
number is one more than the count of earlier non-constant positions
("N incrementing"). -/
def specRenderPos (parts : List Str) (isC : List Bool) (i : Nat) : Str :=
  if nthD true isC i then nthD [] parts i
  else if i = parts.length - 1 then attrPh
  else colPh (1 + ((List.range i).filter fun j => !(nthD true isC j)).length)

/-- The claim's reconstruction of the whole pattern, spec side. -/
def specRender (d : Str) (parts : List Str) (isC : List Bool) : Str :=
  joinWith d ((List.range parts.length).map (specRenderPos parts isC))

/-- `specRenderPos` over zipped (part, constant) pairs with an arbitrary
starting column number; the generalisation that the rendering-loop proof
recurses on. -/
def pairPos (zs : List (Str × Bool)) (vi : Nat) (i : Nat) : Str :=
  if (nthD ([], true) zs i).2 then (nthD ([], true) zs i).1
  else if i = zs.length - 1 then attrPh
  else colPh (vi + ((List.range i).filter fun j => !(nthD ([], true) zs j).2).length)

/-! ## Pattern construction (`key_pattern.cpp`) -/

/-- The reasons `KeyPattern` construction throws (`KeyPatternError`); the
claims only distinguish throwing from not throwing, so messages are not
carried. -/
inductive PatternErr where
  | emptyPattern
  | unclosedBrace
  | emptyPlaceholder
  | invalidChar
  | multipleAttr
  | duplicateCapture
  | noSegments
  | noAttr
  | adjacentVars
deriving DecidableEq, Repr

/-- `std::isalnum(c) || c == '_'` in the C locale. -/
def validNameChar (c : Char) : Bool :=
  c.isAlphanum || c = '_'

/-- The name of the special attr placeholder. -/
def attrStr : Str := "attr".toList

/-- Flush the accumulated literal run in front of a segment list (the C++
pushes `current_literal` only when non-empty). -/
def flushLit (curLit : Str) (segs : List Seg) : List Seg :=
  if curLit = [] then segs else Seg.lit curLit :: segs

/-- `KeyPattern::parse` (`key_pattern.cpp` lines 36-103): scan character by
character; `'\x7b'` flushes the literal run and starts reading a
placeholder name up to the matching `'\x7d'` (error if unclosed, empty,
invalid characters, a second `attr` or a duplicate capture name); other
characters extend the current literal run, flushed at the end.  The
second argument is `some curName` while inside a placeholder (the C++
reads the name with one `find`, which visits the same characters);
`names` and `hasA` thread the C++ `capture_names_` / `has_attr_` state. -/
def kpScan : Str → Option Str → Str → List Str → Bool → Except PatternErr (List Seg)
  | [], some _, _, _, _ => .error .unclosedBrace
  | [], none, curLit, _, _ => .ok (flushLit curLit [])
  | c :: rest, some curName, curLit, names, hasA =>
    if c = '}' then
      if curName = [] then .error .emptyPlaceholder
      else if ¬ curName.all validNameChar then .error .invalidChar
      else if curName = attrStr then
        if hasA then .error .multipleAttr
        else (kpScan rest none [] names true).map fun segs =>
          flushLit curLit (Seg.attrSeg :: segs)
      else if curName ∈ names then .error .duplicateCapture
      else (kpScan rest none [] (names ++ [curName]) hasA).map fun segs =>
        flushLit curLit (Seg.cap curName :: segs)
    else kpScan rest (some (curName ++ [c])) curLit names hasA
  | c :: rest, none, curLit, names, hasA =>
    if c = '{' then kpScan rest (some []) curLit names hasA
    else kpScan rest none (curLit ++ [c]) names hasA

/-- `KeyPattern::validate` (`key_pattern.cpp` lines 130-158): non-empty
segment list, an attr segment present, no two adjacent variable segments.
The C++ also separately checks that the segment after `attr_index_` is a
literal; that check rejects a subset of what the adjacency loop rejects,
so the accepted set is unchanged. -/
def noAdjVars : List Seg → Bool
  | a :: b :: rest => !(a.isVar && b.isVar) && noAdjVars (b :: rest)
  | _ => true

/-- Whether a segment list contains the attr segment. -/
def hasAttrSeg (segs : List Seg) : Bool :=
  segs.any fun s => s = .attrSeg

/-- `KeyPattern::validate` as an `Except`. -/
def kpValidate (segs : List Seg) : Except PatternErr Unit :=
  if segs = [] then .error .noSegments
  else if ¬ hasAttrSeg segs then .error .noAttr
  else if ¬ noAdjVars segs then .error .adjacentVars
  else .ok ()

/-- The `KeyPattern` constructor (`key_pattern.cpp` lines 24-28): the empty
check and scan of `parse`, then `validate`; returns the segment list. -/
def mkKeyPattern (s : Str) : Except PatternErr (List Seg) :=
  if s = [] then .error .emptyPattern
  else do
    let segs ← kpScan s none [] [] false
    let _ ← kpValidate segs
    .ok segs

/-! ## Spec-side structural view of a pattern string (for C6)

The claim describes pattern strings by their decomposition into literal
runs and brace-delimited placeholders.  `tokenize` is that decomposition
(it fails only on an unclosed `'\x7b'`, in which case the string is not
composed of literals and placeholders at all), and `structOk` is the
claim's list of structural invariants, stated over the token list. -/

/-- A token of the pattern micro-grammar: a literal run or a placeholder. -/
inductive Tok where
  | lit : Str → Tok
  | ph : Str → Tok
deriving DecidableEq, Repr

/-- Flush a literal run in front of a token list. -/
def consLitTok (curLit : Str) (ts : List Tok) : List Tok :=
  if curLit = [] then ts else Tok.lit curLit :: ts

/-- Decompose a pattern string into maximal literal runs and placeholders,
with the same two reading modes as the scan; `none` when some `'\x7b'` has
no matching `'\x7d'`. -/
def tokenizeAux : Str → Option Str → Str → Option (List Tok)
  | [], some _, _ => none
  | [], none, curLit => some (consLitTok curLit [])
  | c :: rest, some curName, curLit =>
    if c = '}' then
      (tokenizeAux rest none []).map fun ts => consLitTok curLit (Tok.ph curName :: ts)
    else tokenizeAux rest (some (curName ++ [c])) curLit
  | c :: rest, none, curLit =>
    if c = '{' then tokenizeAux rest (some []) curLit
    else tokenizeAux rest none (curLit ++ [c])

/-- Decompose a whole pattern string into tokens. -/
def tokenize (s : Str) : Option (List Tok) :=
  tokenizeAux s none []

/-- The placeholder names of a token list, in order. -/
def phNames (ts : List Tok) : List Str :=
  ts.filterMap fun t => match t with
    | .ph n => some n
    | _ => none

/-- The capture names of a token list (placeholders other than `attr`). -/
def tokCapNames (ts : List Tok) : List Str :=
  (phNames ts).filter (· ≠ attrStr)

/-- How many `attr` placeholders a token list has. -/
def attrPhCount (ts : List Tok) : Nat :=
  ((phNames ts).filter (· = attrStr)).length

/-- Whether a token is a placeholder. -/
def isPh : Tok → Bool
  | .ph _ => true
  | _ => false

/-- No two adjacent placeholder tokens (the claim's "adjacent variable
segments"). -/
def noAdjPh : List Tok → Bool
  | a :: b :: rest => !(isPh a && isPh b) && noAdjPh (b :: rest)
  | _ => true

/-- Every placeholder name is non-empty and alphanumeric-or-underscore. -/
def namesOk (ts : List Tok) : Bool :=
  (phNames ts).all fun n => n ≠ [] && n.all validNameChar

/-- The claim's structural invariants of a pattern string: non-empty,
decomposable into literals and placeholders, exactly one `attr`
placeholder, no adjacent placeholders, no duplicate capture names, all
placeholder names non-empty and of valid characters. -/
def structOk (s : Str) : Bool :=
  match tokenize s with
  | none => false
  | some ts =>
    s ≠ [] && attrPhCount ts = 1 && noAdjPh ts &&
      (tokCapNames ts).Nodup && namesOk ts

/-- The segment a token denotes (the placeholder named `attr` is the attr
segment). -/
def tokSeg : Tok → Seg
  | .lit l => .lit l
  | .ph n => if n = attrStr then .attrSeg else .cap n

/-- The segments a token list denotes. -/
def segsOfToks (ts : List Tok) : List Seg :=
  ts.map tokSeg

/-- The scan's per-placeholder checks, replayed over a token list with the
threaded `capture_names_` / `has_attr_` state; the bridge between the
character-level scan and the token-level invariants. -/
def scanOkToks (names : List Str) (hasA : Bool) : List Tok → Bool
  | [] => true
  | Tok.lit _ :: ts => scanOkToks names hasA ts
  | Tok.ph n :: ts =>
    if n = [] then false
    else if ¬ n.all validNameChar then false
    else if n = attrStr then
      if hasA then false else scanOkToks names true ts
    else if n ∈ names then false
    else scanOkToks (names ++ [n]) hasA ts

/-! ## Concrete instances used by several claims -/

/-- The pattern of spec Scenario A, as segments: the constructor's output
on `users##\x7bgroup\x7d##\x7bid\x7d##\x7battr\x7d`. -/
def scenarioSegs : List Seg :=
  [.lit "users##".toList, .cap "group".toList, .lit "##".toList,
   .cap "id".toList, .lit "##".toList, .attrSeg]

/-- The key of spec Scenario A. -/
def scenarioKey : Str := "users##admins##user001##name".toList

/-- The projection of spec Scenario B (identity `group`, `id`; attr
columns `name`, `email`). -/
def scenarioProj : Proj := ⟨scenarioSegs, ["name".toList, "email".toList]⟩

/-- The sorted store of spec Scenario B. -/
def scenarioStore : List (Str × Str) :=
  [("users##admins##u1##email".toList, "a@x".toList),
   ("users##admins##u1##name".toList, "Alice".toList),
   ("users##admins##u2##name".toList, "Bob".toList)]

/-- A small non-uniform-delimiter pattern (`t#\x7bg\x7d__\x7bi\x7d::\x7battr\x7d`),
for exercising the generic parse path. -/
def mixedSegs : List Seg :=
  [.lit "t#".toList, .cap "g".toList, .lit "__".toList,
   .cap "i".toList, .lit "::".toList, .attrSeg]

/-- A single-capture uniform-delimiter pattern
(`u##\x7bg\x7d##\x7battr\x7d`) used by the round-trip counterexample. -/
def rtSegs : List Seg :=
  [.lit "u##".toList, .cap "g".toList, .lit "##".toList, .attrSeg]

/-- A writer projection over `rtSegs`: identity column `g` (attnum 1) and
one attr column `name` (attnum 2). -/
def rtWProj : WProj :=
  ⟨rtSegs, [⟨"g".toList, 1⟩, ⟨"name".toList, 2⟩], [⟨"name".toList, 2⟩]⟩

/-- A row image for `rtWProj` whose identity is `x` and whose only attr
column `name` is NULL. -/
def rtNullAttrRow : RowImage :=
  fun i => if i = 0 then some "x".toList else none

/-- A row image for `rtWProj` whose identity column `g` is NULL and whose
attr column `name` is `v`. -/
def rtNullIdRow : RowImage :=
  fun i => if i = 1 then some "v".toList else none

/-- A row image for `rtWProj` with identity `x` and attr `name` set to
`Alice`. -/
def rtFullRow : RowImage :=
  fun i =>
    if i = 0 then some "x".toList
    else if i = 1 then some "Alice".toList
    else none

/-! ## Theorems -/

/-- C7: for every pattern and every capture-value list `ps` and additional
capture value `x`, `build_prefix(ps)` is a string prefix of
`build_prefix(ps ++ [x])`. -/
theorem c7_buildPrefix_monotone (segs : List Seg) (ps : List Str) (x : Str) :
    buildPrefix segs ps <+: buildPrefix segs (ps ++ [x]) := by
  induction segs generalizing ps with
  | nil => exact List.prefix_refl _
  | cons s rest ih =>
    cases s with
    | lit t =>
      obtain ⟨tl, htl⟩ := ih ps
      exact ⟨tl, by simp only [buildPrefix, List.append_assoc, htl]⟩
    | cap n =>
      cases ps with
      | nil => exact List.nil_prefix
      | cons v vs =>
        obtain ⟨tl, htl⟩ := ih vs
        exact ⟨tl, by simp only [buildPrefix, List.cons_append, List.append_assoc, htl]⟩
    | attrSeg => exact List.prefix_refl _

/-- C2 (code bug): on the uniform-delimiter Scenario A pattern,
`parse_view` takes the SIMD path and rejects the key that the generic
parse accepts; conversely it accepts `users####a##b##c`, which the
generic parse rejects, with different captures.  The cause: the
`SimdKeyParser` is constructed with the pattern's literal prefix
(`users##`, delimiter included) yet requires a further delimiter right
after that prefix and `capture_count + 1` delimiters in the body. -/
theorem c2_parse_view_diverges :
    parseView scenarioSegs scenarioKey = none ∧
    kparse scenarioSegs scenarioKey =
      some ⟨["admins".toList, "user001".toList], "name".toList⟩ ∧
    parseView scenarioSegs "users####a##b##c".toList =
      some ⟨["a".toList, "b".toList], "c".toList⟩ ∧
    kparse scenarioSegs "users####a##b##c".toList = none :=
  ⟨rfl, rfl, rfl, rfl⟩

/-- C3 (code bug): on spec Scenario B — the uniform-delimiter pattern and
its three sorted keys — the scanner emits no rows at all, because
`parse_view` (the SIMD path) rejects every key, although each key parses
under the pattern (shown for the first). -/
theorem c3_scanner_emits_no_rows :
    scanAll scenarioProj scenarioStore [] = [] ∧
    kparse scenarioSegs "users##admins##u1##name".toList =
      some ⟨["admins".toList, "u1".toList], "name".toList⟩ ∧
    ("users##admins##u1##name".toList, "Alice".toList) ∈ scenarioStore :=
  ⟨rfl, rfl, by decide⟩

/-- C8 (code bug): `remove_by_identity` deletes nothing for an identity
that the store does hold keys for, because the identity scan filters with
`parse_view` and the SIMD path rejects every key of this uniform-delimiter
pattern. -/
theorem c8_remove_deletes_nothing :
    removeByIdentity scenarioSegs scenarioStore ["admins".toList, "u1".toList] = [] ∧
    kparse scenarioSegs "users##admins##u1##name".toList =
      some ⟨["admins".toList, "u1".toList], "name".toList⟩ ∧
    ("users##admins##u1##name".toList, "Alice".toList) ∈ scenarioStore :=
  ⟨rfl, rfl, by decide⟩

/-- C10: when any identity value of the row image is empty (NULL),
`Writer::insert` fails with the NULL-identity error before issuing any put
or delete, leaving the store and the pending batch exactly as they were. -/
theorem c10_insert_null_identity_no_mutation (p : WProj) (batched : Bool)
    (row : RowImage) (st : WState) (idv : List Str)
    (h1 : extractIdentity p row = .ok idv) (h2 : [] ∈ idv) :
    insertRun p batched row st = (.error .nullIdentity, st) := by
  unfold insertRun
  rw [h1]
  have hany : idv.any (· = []) = true :=
    List.any_eq_true.mpr ⟨[], h2, by simp⟩
  simp [hany]

/-- Witness for C10 at a concrete projection, row and state. -/
theorem c10_witness :
    insertRun rtWProj false rtNullIdRow ⟨[("k".toList, "w".toList)], []⟩ =
      (.error .nullIdentity, ⟨[("k".toList, "w".toList)], []⟩) :=
  c10_insert_null_identity_no_mutation rtWProj false rtNullIdRow _ [[]]
    rfl (by decide)

/-- C1 counterexample: with pattern `u##\x7bg\x7d##\x7battr\x7d`, the
non-empty capture value `a##b` (which contains the following delimiter)
and attr `x`, build succeeds but parsing the built key returns different
captures and attr, so the round trip fails as universally stated. -/
theorem c1_counterexample :
    build rtSegs ["a##b".toList] "x".toList = .ok "u##a##b##x".toList ∧
    kparse rtSegs "u##a##b##x".toList = some ⟨["a".toList], "b##x".toList⟩ ∧
    (⟨["a".toList], "b##x".toList⟩ : ParsedKey) ≠ ⟨["a##b".toList], "x".toList⟩ :=
  ⟨rfl, rfl, by decide⟩

/-- C4 counterexample: over samples `a:x:z` and `a:y:z` the inferred
pattern renders the last non-constant position (the middle one) as a
numbered column placeholder, not as the attr placeholder the claim
requires. -/
theorem c4_counterexample :
    inferPattern ["a:x:z".toList, "a:y:z".toList] =
      some ("a:".toList ++ colPh 1 ++ ":z".toList) ∧
    "a:".toList ++ colPh 1 ++ ":z".toList ≠ "a:".toList ++ attrPh ++ ":z".toList :=
  ⟨rfl, by decide⟩

/-- C5 counterexample: an identity-preserving update whose attr column
`name` is NULL in both images still issues a delete for `name`, although
no non-null-to-null transition happened. -/
theorem c5_counterexample :
    updateOps rtWProj [] rtNullAttrRow rtNullAttrRow =
      .ok [Op.del "u##x##name".toList] ∧
    rtNullAttrRow 1 = none :=
  ⟨rfl, rfl⟩

/-! ### Unfolding helpers for the segment-derived quantities -/

@[simp] theorem captureNames_nil : captureNames [] = [] := rfl

@[simp] theorem captureNames_cons_lit (t : Str) (r : List Seg) :
    captureNames (Seg.lit t :: r) = captureNames r := rfl

@[simp] theorem captureNames_cons_cap (n : Str) (r : List Seg) :
    captureNames (Seg.cap n :: r) = n :: captureNames r := rfl

@[simp] theorem captureNames_cons_attr (r : List Seg) :
    captureNames (Seg.attrSeg :: r) = captureNames r := rfl

@[simp] theorem attrSegCount_nil : attrSegCount [] = 0 := rfl

@[simp] theorem attrSegCount_cons_lit (t : Str) (r : List Seg) :
    attrSegCount (Seg.lit t :: r) = attrSegCount r := by
  simp [attrSegCount]

@[simp] theorem attrSegCount_cons_cap (n : Str) (r : List Seg) :
    attrSegCount (Seg.cap n :: r) = attrSegCount r := by
  simp [attrSegCount]

@[simp] theorem attrSegCount_cons_attr (r : List Seg) :
    attrSegCount (Seg.attrSeg :: r) = attrSegCount r + 1 := by
  simp [attrSegCount, List.filter_cons]

/-- A boolean literal-prefix match restored by re-prepending the literal. -/
theorem prefix_append_drop {t key : Str} (h : t.isPrefixOf key = true) :
    t ++ key.drop t.length = key := by
  obtain ⟨s, hs⟩ := List.isPrefixOf_iff_prefix.mp h
  rw [← hs, List.drop_left]

/-- Inversion of a successful generic parse: the capture count matches the
pattern, the attr value is present exactly when the pattern has an attr
segment and is non-empty, and (for patterns with at most one attr segment)
rebuilding with the parsed values reproduces the key. -/
theorem parseSegs_inv (segs : List Seg) :
    ∀ (key : Str) (p : ParsedK),
      parseSegs segs key = some p →
      p.captures.length = captureCount segs ∧
      (p.attrv.isSome ↔ 1 ≤ attrSegCount segs) ∧
      (∀ a ∈ p.attrv, a ≠ []) ∧
      (attrSegCount segs ≤ 1 →
        ∀ a : Str, (attrSegCount segs = 0 ∨ p.attrv = some a) →
          buildWalk segs p.captures a = .ok key) := by
  induction segs with
  | nil =>
    intro key p h
    simp only [parseSegs] at h
    split at h
    · rename_i hkey
      cases h
      subst hkey
      refine ⟨rfl, by simp, by simp, ?_⟩
      intro _ a _
      rfl
    · cases h
  | cons s rest ih =>
    intro key p h
    cases s with
    | lit t =>
      simp only [parseSegs] at h
      split at h
      · rename_i hpre
        obtain ⟨h1, h2, h3, h4⟩ := ih _ _ h
        refine ⟨by simpa [captureCount] using h1, by simpa using h2, h3, ?_⟩
        intro hle a ha
        simp only [attrSegCount_cons_lit] at hle ha
        have hbw := h4 hle a ha
        simp only [buildWalk, hbw, Except.map]
        rw [prefix_append_drop hpre]
      · cases h
    | cap n =>
      match hr : rest with
      | [] =>
        simp only [parseSegs] at h
        split at h
        · cases h
        · rename_i hkey
          cases h
          refine ⟨rfl, by simp, by simp, ?_⟩
          intro _ a _
          simp only [buildWalk]
          split
          · rename_i hk
            exact absurd hk hkey
          · simp [buildWalk, Except.map]
      | .lit t :: rest2 =>
        simp only [parseSegs] at h
        split at h
        · cases h
        · rename_i i hfind
          split at h
          · cases h
          · rename_i hi
            simp only [Option.map_eq_some'] at h
            obtain ⟨p', hp', hpe⟩ := h
            obtain ⟨h1, h2, h3, h4⟩ := ih _ _ hp'
            subst hpe
            have hkey : key ≠ [] := by
              intro hk
              subst hk
              simp only [findSub] at hfind
              split at hfind
              · simp at hfind
                omega
              · cases hfind
            have htake : key.take i ≠ [] := by
              intro hc
              rcases List.take_eq_nil_iff.mp hc with h' | h' <;>
                first | exact hi h' | exact hkey h'
            refine ⟨by simpa [captureCount] using h1, by simpa using h2, h3, ?_⟩
            intro hle a ha
            simp only [attrSegCount_cons_cap] at hle ha
            have hbw := h4 hle a ha
            have hone : buildWalk (Seg.cap n :: Seg.lit t :: rest2)
                (key.take i :: p'.captures) a =
                if key.take i = [] then .error .emptyCapture
                else (buildWalk (Seg.lit t :: rest2) p'.captures a).map
                  (key.take i ++ ·) := rfl
            rw [hone, if_neg htake, hbw]
            simp only [Except.map]
            rw [List.take_append_drop]
      | .cap _ :: rest2 =>
        simp only [parseSegs] at h
        exact Option.noConfusion h
      | .attrSeg :: rest2 =>
        simp only [parseSegs] at h
        exact Option.noConfusion h
    | attrSeg =>
      match hr : rest with
      | [] =>
        simp only [parseSegs] at h
        split at h
        · cases h
        · rename_i hkey
          cases h
          refine ⟨rfl, by simp, by simpa using hkey, ?_⟩
          intro _ a ha
          rcases ha with h' | h'
          · simp at h'
          · simp only [Option.some_inj] at h'
            subst h'
            simp [buildWalk, Except.map]
      | .lit t :: rest2 =>
        simp only [parseSegs] at h
        split at h
        · cases h
        · rename_i i hfind
          split at h
          · cases h
          · rename_i hi
            simp only [Option.map_eq_some'] at h
            obtain ⟨p', hp', hpe⟩ := h
            obtain ⟨h1, h2, h3, h4⟩ := ih _ _ hp'
            subst hpe
            have hkey : key ≠ [] := by
              intro hk
              subst hk
              simp only [findSub] at hfind
              split at hfind
              · simp at hfind
                omega
              · cases hfind
            have htake : key.take i ≠ [] := by
              intro hc
              rcases List.take_eq_nil_iff.mp hc with h' | h' <;>
                first | exact hi h' | exact hkey h'
            refine ⟨by simpa [captureCount] using h1, by simp, ?_, ?_⟩
            · intro a ha
              simp only [Option.mem_def, Option.some_inj] at ha
              subst ha
              cases hv : p'.attrv with
              | none => simpa [hv] using htake
              | some a' =>
                have := h3 a' (by simp [hv])
                simpa [hv] using this
            · intro hle a ha
              simp only [attrSegCount_cons_attr, attrSegCount_cons_lit] at hle
              have hrest0 : attrSegCount rest2 = 0 := by omega
              have hv : p'.attrv = none := by
                cases hv : p'.attrv with
                | none => rfl
                | some a' =>
                  have h2' := h2.mp (by simp [hv])
                  simp only [attrSegCount_cons_lit] at h2'
                  omega
              rcases ha with h' | h'
              · simp only [attrSegCount_cons_attr, attrSegCount_cons_lit] at h'
                omega
              · simp only [hv, Option.getD_none, Option.some_inj] at h'
                subst h'
                have hbw := h4 (by simp only [attrSegCount_cons_lit]; omega)
                  (key.take i) (Or.inl (by simp only [attrSegCount_cons_lit]; omega))
                have hone : buildWalk (Seg.attrSeg :: Seg.lit t :: rest2)
                    p'.captures (key.take i) =
                    (buildWalk (Seg.lit t :: rest2) p'.captures (key.take i)).map
                      (key.take i ++ ·) := rfl
                rw [hone, hbw]
                simp only [Except.map]
                rw [List.take_append_drop]
      | .cap _ :: rest2 =>
        simp only [parseSegs] at h
        exact Option.noConfusion h
      | .attrSeg :: rest2 =>
        simp only [parseSegs] at h
        exact Option.noConfusion h

/-- C9: build is a left inverse of the generic parse: any accepted key is
reconstructed byte-for-byte from the parsed captures and attr name, for
every pattern with exactly one attr segment (what construction
guarantees). -/
theorem c9_build_parse_roundtrip (segs : List Seg) (key : Str) (pk : ParsedKey)
    (h1 : attrSegCount segs = 1) (h2 : kparse segs key = some pk) :
    build segs pk.captures pk.attrName = .ok key := by
  simp only [kparse, Option.map_eq_some'] at h2
  obtain ⟨p, hp, hpe⟩ := h2
  obtain ⟨hlen, hsome, hne, hbw⟩ := parseSegs_inv segs key p hp
  obtain ⟨a, ha⟩ := Option.isSome_iff_exists.mp (hsome.mpr (by omega))
  subst hpe
  simp only [ha, Option.getD_some]
  have hane : a ≠ [] := hne a (by simp [ha])
  unfold build
  rw [if_neg (by simp [hlen]), if_neg (by simpa using hane)]
  exact hbw (by omega) a (Or.inr ha)

/-- Witness for C9 at spec Scenario A. -/
theorem c9_witness :
    build scenarioSegs ["admins".toList, "user001".toList] "name".toList =
      .ok scenarioKey :=
  c9_build_parse_roundtrip scenarioSegs scenarioKey
    ⟨["admins".toList, "user001".toList], "name".toList⟩ (by decide) rfl

/-! ### The round trip `parse ∘ build` (C1) -/

@[simp] theorem hasAttrSeg_nil : hasAttrSeg [] = false := rfl

@[simp] theorem hasAttrSeg_cons_lit (t : Str) (r : List Seg) :
    hasAttrSeg (Seg.lit t :: r) = hasAttrSeg r := by
  simp [hasAttrSeg]

@[simp] theorem hasAttrSeg_cons_cap (n : Str) (r : List Seg) :
    hasAttrSeg (Seg.cap n :: r) = hasAttrSeg r := by
  simp [hasAttrSeg]

@[simp] theorem hasAttrSeg_cons_attr (r : List Seg) :
    hasAttrSeg (Seg.attrSeg :: r) = true := by
  simp [hasAttrSeg]

/-- A prefix of `x` is also a prefix of `x ++ s`. -/
theorem isPrefixOf_append_right {t x : Str} (s : Str)
    (h : t.isPrefixOf x = true) : t.isPrefixOf (x ++ s) = true := by
  rw [List.isPrefixOf_iff_prefix] at h ⊢
  exact h.trans (List.prefix_append x s)

/-- A prefix of `x ++ s` no longer than `x` is a prefix of `x`. -/
theorem isPrefixOf_of_append_of_le {t x s : Str}
    (h : t.isPrefixOf (x ++ s) = true) (hle : t.length ≤ x.length) :
    t.isPrefixOf x = true := by
  rw [List.isPrefixOf_iff_prefix] at h ⊢
  have h1 : t = (x ++ s).take t.length := List.prefix_iff_eq_take.mp h
  have h2 : (x ++ s).take t.length = x.take t.length := by
    rw [List.take_append_eq_append_take, Nat.sub_eq_zero_of_le hle,
      List.take_zero, List.append_nil]
  rw [h1, h2]
  exact List.take_prefix _ _

/-- Extending the haystack to the right of the found delimiter does not
change the first occurrence: if the first occurrence of `t` in `v ++ t` is
at `v.length`, it stays there in `v ++ t ++ s`. -/
theorem findSub_append_of_clean {t : Str} (s : Str) :
    ∀ v : Str, findSub t (v ++ t) = some v.length →
      findSub t (v ++ t ++ s) = some v.length := by
  intro v
  induction v with
  | nil =>
    intro _
    simp only [List.nil_append, List.length_nil]
    cases t with
    | nil =>
      cases s with
      | nil => rfl
      | cons c s' => simp [findSub]
    | cons c t' =>
      simp only [List.cons_append, findSub]
      rw [if_pos]
      rw [List.isPrefixOf_iff_prefix]
      exact ⟨s, by simp⟩
  | cons c v' ih =>
    intro h
    simp only [List.cons_append, findSub, List.length_cons] at h ⊢
    split at h
    · simp at h
    · rename_i hpre
      simp only [Option.map_eq_some'] at h
      obtain ⟨j, hj, hj1⟩ := h
      have hj' : j = v'.length := by omega
      subst hj'
      rw [if_neg ?_]
      · rw [Option.map_eq_some']
        exact ⟨v'.length, ih hj, rfl⟩
      · intro hc
        exact hpre (isPrefixOf_of_append_of_le
          (by simpa [List.append_assoc] using hc) (by simp; omega))

/-- Under the arity and non-emptiness conditions the build walk always
produces a key. -/
theorem buildWalk_ok (segs : List Seg) :
    ∀ (vs : List Str) (a : Str), vs.length = captureCount segs →
      (∀ v ∈ vs, v ≠ []) → ∃ k, buildWalk segs vs a = .ok k := by
  induction segs with
  | nil =>
    intro vs a _ _
    exact ⟨[], rfl⟩
  | cons s rest ih =>
    intro vs a hlen hne
    cases s with
    | lit t =>
      obtain ⟨k, hk⟩ := ih vs a (by simpa [captureCount] using hlen) hne
      exact ⟨t ++ k, by simp [buildWalk, hk, Except.map]⟩
    | cap n =>
      cases vs with
      | nil => simp [captureCount] at hlen
      | cons v vs' =>
        obtain ⟨k, hk⟩ := ih vs' a (by simpa [captureCount] using hlen)
          (fun w hw => hne w (List.mem_cons_of_mem _ hw))
        refine ⟨v ++ k, ?_⟩
        simp only [buildWalk]
        rw [if_neg (hne v (List.mem_cons_self _ _))]
        simp [hk, Except.map]
    | attrSeg =>
      obtain ⟨k, hk⟩ := ih vs a (by simpa [captureCount] using hlen) hne
      exact ⟨a ++ k, by simp [buildWalk, hk, Except.map]⟩

/-- The built key parses back to exactly the values that built it, under
the arity, non-emptiness and delimiter-safety conditions. -/
theorem parseSegs_of_buildWalk (segs : List Seg) :
    ∀ (vs : List Str) (a k : Str),
      vs.length = captureCount segs →
      (∀ v ∈ vs, v ≠ []) →
      a ≠ [] →
      cleanCond segs vs a = true →
      buildWalk segs vs a = .ok k →
      parseSegs segs k =
        some ⟨vs, if hasAttrSeg segs then some a else none⟩ := by
  induction segs with
  | nil =>
    intro vs a k hlen _ _ _ hbw
    have hvs : vs = [] := List.length_eq_zero.mp (by simpa [captureCount] using hlen)
    subst hvs
    cases hbw
    rfl
  | cons s rest ih =>
    intro vs a k hlen hne hane hclean hbw
    cases s with
    | lit t =>
      simp only [buildWalk] at hbw
      cases hb : buildWalk rest vs a with
      | error e => rw [hb] at hbw; cases hbw
      | ok k' =>
        rw [hb] at hbw
        simp only [Except.map] at hbw
        cases hbw
        have hrec := ih vs a k' (by simpa [captureCount] using hlen) hne hane
          (by simpa [cleanCond] using hclean) hb
        simp only [parseSegs]
        rw [if_pos (by rw [List.isPrefixOf_iff_prefix]; exact ⟨k', rfl⟩)]
        rw [List.drop_left, hrec]
        simp
    | cap n =>
      cases vs with
      | nil => simp [captureCount] at hlen
      | cons v vs' =>
        have hv : v ≠ [] := hne v (List.mem_cons_self _ _)
        simp only [buildWalk] at hbw
        rw [if_neg hv] at hbw
        cases hb : buildWalk rest vs' a with
        | error e => rw [hb] at hbw; cases hbw
        | ok k' =>
          rw [hb] at hbw
          simp only [Except.map] at hbw
          cases hbw
          simp only [cleanCond, Bool.and_eq_true] at hclean
          obtain ⟨hcl1, hcl2⟩ := hclean
          have hrec := ih vs' a k' (by simpa [captureCount] using hlen)
            (fun w hw => hne w (List.mem_cons_of_mem _ hw)) hane hcl2 hb
          cases rest with
          | nil =>
            cases hb
            simp only [parseSegs]
            have hvs' : vs' = [] :=
              List.length_eq_zero.mp (by simpa [captureCount] using hlen)
            subst hvs'
            rw [if_neg (by simpa using hv)]
            simp
          | cons s2 rest2 =>
            cases s2 with
            | lit t =>
              simp only [buildWalk] at hb
              cases hb2 : buildWalk rest2 vs' a with
              | error e => rw [hb2] at hb; cases hb
              | ok k'' =>
                rw [hb2] at hb
                simp only [Except.map] at hb
                cases hb
                simp only [nextLitClean, beq_iff_eq] at hcl1
                have hfind : findSub t (v ++ (t ++ k'')) = some v.length := by
                  have := findSub_append_of_clean k'' v hcl1
                  simpa [List.append_assoc] using this
                simp only [parseSegs, hfind]
                rw [if_neg (by simpa using hv)]
                rw [List.take_left, List.drop_left]
                simp only [parseSegs] at hrec
                rw [hrec]
                simp
            | cap _ => simp [nextLitClean] at hcl1
            | attrSeg => simp [nextLitClean] at hcl1
    | attrSeg =>
      simp only [buildWalk] at hbw
      cases hb : buildWalk rest vs a with
      | error e => rw [hb] at hbw; cases hbw
      | ok k' =>
        rw [hb] at hbw
        simp only [Except.map] at hbw
        cases hbw
        simp only [cleanCond, Bool.and_eq_true] at hclean
        obtain ⟨hcl1, hcl2⟩ := hclean
        have hrec := ih vs a k' (by simpa [captureCount] using hlen) hne hane hcl2 hb
        cases rest with
        | nil =>
          cases hb
          have hvs : vs = [] :=
            List.length_eq_zero.mp (by simpa [captureCount] using hlen)
          subst hvs
          simp only [parseSegs]
          rw [if_neg (by simpa using hane)]
          simp
        | cons s2 rest2 =>
          cases s2 with
          | lit t =>
            simp only [buildWalk] at hb
            cases hb2 : buildWalk rest2 vs a with
            | error e => rw [hb2] at hb; cases hb
            | ok k'' =>
              rw [hb2] at hb
              simp only [Except.map] at hb
              cases hb
              simp only [nextLitClean, beq_iff_eq] at hcl1
              have hfind : findSub t (a ++ (t ++ k'')) = some a.length := by
                have := findSub_append_of_clean k'' a hcl1
                simpa [List.append_assoc] using this
              simp only [parseSegs, hfind]
              rw [if_neg (by simpa using hane)]
              rw [List.take_left, List.drop_left]
              simp only [parseSegs] at hrec
              rw [hrec]
              cases hf : hasAttrSeg rest2 <;> simp [hf]
          | cap _ => simp [nextLitClean] at hcl1
          | attrSeg => simp [nextLitClean] at hcl1

/-- C1 (amended): for every KeyPattern with an attr segment, every list of
non-empty capture values of the pattern's arity and every non-empty attr
name, provided each capture value (and the attr name) that is followed by
a literal delimiter does not contain that delimiter nor overlap an earlier
occurrence of it (`cleanCond`), build succeeds and parsing the built key
returns exactly the same capture values and attr name. -/
theorem c1_roundtrip_amended (segs : List Seg) (vs : List Str) (a : Str)
    (hattr : hasAttrSeg segs = true)
    (hlen : vs.length = captureCount segs)
    (hne : ∀ v ∈ vs, v ≠ [])
    (ha : a ≠ [])
    (hclean : cleanCond segs vs a = true) :
    ∃ k, build segs vs a = .ok k ∧ kparse segs k = some ⟨vs, a⟩ := by
  obtain ⟨k, hk⟩ := buildWalk_ok segs vs a hlen hne
  refine ⟨k, ?_, ?_⟩
  · unfold build
    rw [if_neg (by simp [hlen]), if_neg (by simpa using ha)]
    exact hk
  · have := parseSegs_of_buildWalk segs vs a k hlen hne ha hclean hk
    rw [hattr] at this
    simp [kparse, this]

/-- Witness for C1 (amended) at spec Scenario A's pattern and values. -/
theorem c1_witness :
    ∃ k, build scenarioSegs ["admins".toList, "user001".toList] "name".toList =
        .ok k ∧
      kparse scenarioSegs k =
        some ⟨["admins".toList, "user001".toList], "name".toList⟩ :=
  c1_roundtrip_amended scenarioSegs ["admins".toList, "user001".toList]
    "name".toList (by decide) (by decide) (by decide) (by decide) (by decide)

/-! ### The identity-unchanged update (C5) -/

/-- The identity-extraction loop yields one value per capture name. -/
theorem extractIdentityGo_length (cols : List Column) (row : RowImage) :
    ∀ (names : List Str) (idv : List Str),
      extractIdentityGo cols row names = .ok idv →
        idv.length = names.length := by
  intro names
  induction names with
  | nil =>
    intro idv h
    cases h
    rfl
  | cons cn rest ih =>
    intro idv h
    simp only [extractIdentityGo] at h
    split at h
    · cases h
    · cases hr : extractIdentityGo cols row rest with
      | error e => rw [hr] at h; cases h
      | ok tl =>
        rw [hr] at h
        simp only [Except.map] at h
        cases h
        simp [ih tl hr]

/-- `build` succeeds for every non-empty attr name whenever the identity
has the pattern's arity and no empty values. -/
theorem build_ok_of_identity (segs : List Seg) (idv : List Str) (nm : Str)
    (hlen : idv.length = captureCount segs) (hne : ∀ v ∈ idv, v ≠ [])
    (hnm : nm ≠ []) : ∃ k, build segs idv nm = .ok k := by
  obtain ⟨k, hk⟩ := buildWalk_ok segs idv nm hlen hne
  refine ⟨k, ?_⟩
  unfold build
  rw [if_neg (by simp [hlen]), if_neg (by simpa using hnm)]
  exact hk

/-- Characterisation of the put loop of `update`/`insert`: one put per
non-null attr, keyed by `build`. -/
theorem putOps_spec (segs : List Seg) (idv : List Str) :
    ∀ vals : List (Str × Str),
      (∀ x ∈ vals, ∃ k, build segs idv x.1 = .ok k) →
      ∃ ops, putOps segs idv vals = .ok ops ∧
        ops.length = vals.length ∧
        (∀ o ∈ ops, ∃ k v, o = Op.put k v) ∧
        (∀ k v, Op.put k v ∈ ops ↔
          ∃ nm, (nm, v) ∈ vals ∧ build segs idv nm = .ok k) := by
  intro vals
  induction vals with
  | nil =>
    intro _
    exact ⟨[], rfl, rfl, by simp, by simp⟩
  | cons x rest ih =>
    obtain ⟨xn, xv⟩ := x
    intro hb
    obtain ⟨k0, hk0⟩ := hb (xn, xv) (List.mem_cons_self _ _)
    obtain ⟨ops, hops, hlen, hshape, hmem⟩ :=
      ih (fun y hy => hb y (List.mem_cons_of_mem _ hy))
    refine ⟨Op.put k0 xv :: ops, ?_, by simp [hlen], ?_, ?_⟩
    · simp only [putOps, hk0, hops, Except.map]
    · intro o ho
      rcases List.mem_cons.mp ho with h | h
      · exact ⟨k0, xv, h⟩
      · exact hshape o h
    · intro k v
      constructor
      · intro hin
        rcases List.mem_cons.mp hin with h | h
        · cases h
          exact ⟨xn, List.mem_cons_self _ _, hk0⟩
        · obtain ⟨nm, hnm, hbk⟩ := (hmem k v).mp h
          exact ⟨nm, List.mem_cons_of_mem _ hnm, hbk⟩
      · rintro ⟨nm, hnm, hbk⟩
        rcases List.mem_cons.mp hnm with h | h
        · cases h
          have hkk : k0 = k := Except.ok.inj (hk0.symm.trans hbk)
          subst hkk
          exact List.mem_cons_self _ _
        · exact List.mem_cons_of_mem _ ((hmem k v).mpr ⟨nm, h, hbk⟩)

/-- Characterisation of the delete loop of `update`: one delete per
now-null attr, keyed by `build`. -/
theorem delOps_spec (segs : List Seg) (idv : List Str) :
    ∀ names : List Str,
      (∀ nm ∈ names, ∃ k, build segs idv nm = .ok k) →
      ∃ ops, delOps segs idv names = .ok ops ∧
        ops.length = names.length ∧
        (∀ o ∈ ops, ∃ k, o = Op.del k) ∧
        (∀ k, Op.del k ∈ ops ↔
          ∃ nm ∈ names, build segs idv nm = .ok k) := by
  intro names
  induction names with
  | nil =>
    intro _
    exact ⟨[], rfl, rfl, by simp, by simp⟩
  | cons xn rest ih =>
    intro hb
    obtain ⟨k0, hk0⟩ := hb xn (List.mem_cons_self _ _)
    obtain ⟨ops, hops, hlen, hshape, hmem⟩ :=
      ih (fun y hy => hb y (List.mem_cons_of_mem _ hy))
    refine ⟨Op.del k0 :: ops, ?_, by simp [hlen], ?_, ?_⟩
    · simp only [delOps, hk0, hops, Except.map]
    · intro o ho
      rcases List.mem_cons.mp ho with h | h
      · exact ⟨k0, h⟩
      · exact hshape o h
    · intro k
      constructor
      · intro hin
        rcases List.mem_cons.mp hin with h | h
        · cases h
          exact ⟨xn, List.mem_cons_self _ _, hk0⟩
        · obtain ⟨nm, hnm, hbk⟩ := (hmem k).mp h
          exact ⟨nm, List.mem_cons_of_mem _ hnm, hbk⟩
      · rintro ⟨nm, hnm, hbk⟩
        rcases List.mem_cons.mp hnm with h | h
        · subst h
          have hkk : k0 = k := Except.ok.inj (hk0.symm.trans hbk)
          subst hkk
          exact List.mem_cons_self _ _
        · exact List.mem_cons_of_mem _ ((hmem k).mpr ⟨nm, h, hbk⟩)

/-- Each attr column lands in exactly one of `values` / `null_names`. -/
theorem extractAllAttrs_length (p : WProj) (row : RowImage) :
    (extractAllAttrs p row).values.length +
      (extractAllAttrs p row).nullNames.length = p.attrCols.length := by
  simp only [extractAllAttrs]
  induction p.attrCols with
  | nil => rfl
  | cons c cs ih =>
    simp only [List.filterMap_cons]
    cases h : row (c.attnum - 1) with
    | none => simp only [h]; simp; omega
    | some v => simp only [h]; simp; omega

/-- C5 (amended): an identity-unchanged update issues exactly one put per
attr column that is non-null in the new image (with its value, at the key
built from the identity and the attr name) and exactly one delete per attr
column that is null in the new image — whether or not it was null in the
old image; no other operations are issued, so nothing resembling a null
marker is ever written. -/
theorem c5_update_amended (p : WProj) (store : List (Str × Str))
    (oldRow newRow : RowImage) (idv : List Str)
    (hold : extractIdentity p oldRow = .ok idv)
    (hnew : extractIdentity p newRow = .ok idv)
    (hidne : ∀ v ∈ idv, v ≠ [])
    (hcols : ∀ c ∈ p.attrCols, c.name ≠ []) :
    ∃ ops, updateOps p store oldRow newRow = .ok ops ∧
      ops.length = p.attrCols.length ∧
      (∀ k v, Op.put k v ∈ ops ↔
        ∃ c ∈ p.attrCols, newRow (c.attnum - 1) = some v ∧
          build p.segs idv c.name = .ok k) ∧
      (∀ k, Op.del k ∈ ops ↔
        ∃ c ∈ p.attrCols, newRow (c.attnum - 1) = none ∧
          build p.segs idv c.name = .ok k) := by
  have hlen : idv.length = captureCount p.segs := by
    have := extractIdentityGo_length p.cols oldRow (captureNames p.segs) idv hold
    simpa [captureCount] using this
  have hvals : ∀ x ∈ (extractAllAttrs p newRow).values,
      ∃ k, build p.segs idv x.1 = .ok k := by
    rintro ⟨nm, v⟩ hx
    obtain ⟨c, hc, hcx⟩ := List.mem_filterMap.mp hx
    obtain ⟨w, hw, hwx⟩ := Option.map_eq_some'.mp hcx
    cases hwx
    exact build_ok_of_identity p.segs idv c.name hlen hidne (hcols c hc)
  have hnames : ∀ nm ∈ (extractAllAttrs p newRow).nullNames,
      ∃ k, build p.segs idv nm = .ok k := by
    intro nm hx
    obtain ⟨c, hc, hcx⟩ := List.mem_filterMap.mp hx
    have hcn : c.name = nm := by
      revert hcx
      cases row0 : newRow (c.attnum - 1) <;> intro hcx <;> simp at hcx
      exact hcx
    subst hcn
    exact build_ok_of_identity p.segs idv c.name hlen hidne (hcols c hc)
  obtain ⟨puts, hputs, hplen, hpshape, hpmem⟩ :=
    putOps_spec p.segs idv (extractAllAttrs p newRow).values hvals
  obtain ⟨dels, hdels, hdlen, hdshape, hdmem⟩ :=
    delOps_spec p.segs idv (extractAllAttrs p newRow).nullNames hnames
  refine ⟨puts ++ dels, ?_, ?_, ?_, ?_⟩
  · simp only [updateOps, hold, hnew, Except.bind, bind]
    rw [if_neg (by simp)]
    simp [hputs, hdels, Except.bind]
  · have := extractAllAttrs_length p newRow
    simp only [List.length_append, hplen, hdlen]
    omega
  · intro k v
    constructor
    · intro hin
      rcases List.mem_append.mp hin with h | h
      · obtain ⟨nm, hnm, hbk⟩ := (hpmem k v).mp h
        obtain ⟨c, hc, hcx⟩ := List.mem_filterMap.mp hnm
        obtain ⟨w, hw, hwx⟩ := Option.map_eq_some'.mp hcx
        cases hwx
        exact ⟨c, hc, hw, hbk⟩
      · obtain ⟨k', hk'⟩ := hdshape _ h
        cases hk'
    · rintro ⟨c, hc, hval, hbk⟩
      refine List.mem_append.mpr (Or.inl ((hpmem k v).mpr ⟨c.name, ?_, hbk⟩))
      exact List.mem_filterMap.mpr ⟨c, hc, by rw [hval]; rfl⟩
  · intro k
    constructor
    · intro hin
      rcases List.mem_append.mp hin with h | h
      · obtain ⟨k', v', hk'⟩ := hpshape _ h
        cases hk'
      · obtain ⟨nm, hnm, hbk⟩ := (hdmem k).mp h
        obtain ⟨c, hc, hcx⟩ := List.mem_filterMap.mp hnm
        cases row0 : newRow (c.attnum - 1) with
        | none =>
          rw [row0] at hcx
          simp only [Option.some_inj] at hcx
          subst hcx
          exact ⟨c, hc, row0, hbk⟩
        | some v =>
          rw [row0] at hcx
          cases hcx
    · rintro ⟨c, hc, hval, hbk⟩
      refine List.mem_append.mpr (Or.inr ((hdmem k).mpr ⟨c.name, ?_, hbk⟩))
      exact List.mem_filterMap.mpr ⟨c, hc, by rw [hval]⟩

/-- Witness for C5 (amended) with a one-attr projection, identity `x` and
a non-null attr in both images. -/
theorem c5_witness :
    ∃ ops, updateOps rtWProj [] rtFullRow rtFullRow = .ok ops ∧
      ops.length = rtWProj.attrCols.length ∧
      (∀ k v, Op.put k v ∈ ops ↔
        ∃ c ∈ rtWProj.attrCols, rtFullRow (c.attnum - 1) = some v ∧
          build rtWProj.segs ["x".toList] c.name = .ok k) ∧
      (∀ k, Op.del k ∈ ops ↔
        ∃ c ∈ rtWProj.attrCols, rtFullRow (c.attnum - 1) = none ∧
          build rtWProj.segs ["x".toList] c.name = .ok k) :=
  c5_update_amended rtWProj [] rtFullRow rtFullRow ["x".toList]
    rfl rfl (by decide) (by decide)

/-! ### Pattern reconstruction in `infer_pattern` (C4) -/

/-- `joinWith` over a cons with a non-empty tail. -/
theorem joinWith_cons (d x : Str) (ys : List Str) (h : ys ≠ []) :
    joinWith d (x :: ys) = x ++ d ++ joinWith d ys := by
  cases ys with
  | nil => exact absurd rfl h
  | cons y ys' => rfl

@[simp] theorem nthD_cons_succ {A : Type} (d : A) (x : A) (t : List A) (i : Nat) :
    nthD d (x :: t) (i + 1) = nthD d t i := rfl

@[simp] theorem nthD_cons_zero {A : Type} (d : A) (x : A) (t : List A) :
    nthD d (x :: t) 0 = x := rfl

@[simp] theorem nthD_nil {A : Type} (d : A) (i : Nat) :
    nthD d ([] : List A) i = d := rfl

/-- Stepping the non-constant count across the head pair. -/
theorem count_shift (z : Str × Bool) (tail : List (Str × Bool)) (i : Nat) :
    ((List.range (i + 1)).filter fun j => !(nthD ([], true) (z :: tail) j).2).length
      = (if z.2 then 0 else 1) +
        ((List.range i).filter fun j => !(nthD ([], true) tail j).2).length := by
  rw [List.range_succ_eq_map, List.filter_cons]
  have hfm : (List.filter (fun j => !(nthD ([], true) (z :: tail) j).2)
      (List.map Nat.succ (List.range i)))
      = List.map Nat.succ (List.filter (fun j => !(nthD ([], true) tail j).2)
          (List.range i)) := by
    rw [List.filter_map]
    congr 1
  rw [hfm]
  rcases z with ⟨zp, zc⟩
  cases zc with
  | false =>
    rw [if_pos (by simp),
      show (if ((zp, false) : Str × Bool).2 = true then 0 else 1) = 1 from rfl]
    simp only [List.length_cons, List.length_map]
    omega
  | true =>
    rw [if_neg (by simp),
      show (if ((zp, true) : Str × Bool).2 = true then 0 else 1) = 0 from rfl]
    simp only [List.length_map]
    omega

/-- Shifting `pairPos` across the head pair. -/
theorem pairPos_succ (z : Str × Bool) (tail : List (Str × Bool))
    (htail : tail ≠ []) (vi i : Nat) :
    pairPos (z :: tail) vi (i + 1) =
      pairPos tail (if z.2 then vi else vi + 1) i := by
  have hlen : 1 ≤ tail.length := by
    cases tail with
    | nil => exact absurd rfl htail
    | cons _ _ => simp
  unfold pairPos
  simp only [nthD_cons_succ, List.length_cons, Nat.add_sub_cancel]
  by_cases hc : (nthD ([], true) tail i).2
  · rw [if_pos hc, if_pos hc]
  · rw [if_neg hc, if_neg hc]
    by_cases hl : i + 1 = tail.length
    · rw [if_pos hl, if_pos (by omega)]
    · rw [if_neg hl, if_neg (by omega)]
      have hcnt := count_shift z tail i
      rw [hcnt]
      rcases z with ⟨zp, zc⟩
      cases zc with
      | false =>
        simp only [Bool.false_eq_true, if_false, if_neg]
        congr 1
        omega
      | true =>
        simp only [if_true]
        congr 1
        omega

/-- The head pair renders as the claim's rule for position zero of a list
with at least two positions. -/
theorem pairPos_zero (z z2 : Str × Bool) (rest : List (Str × Bool)) (vi : Nat) :
    pairPos (z :: z2 :: rest) vi 0 = if z.2 then z.1 else colPh vi := by
  rcases z with ⟨p, c⟩
  cases c <;> simp [pairPos]

/-- The rendering loop of `infer_pattern` equals the claim's per-position
rule joined with the delimiter. -/
theorem inferRenderAux_eq (d : Str) :
    ∀ (zs : List (Str × Bool)) (vi : Nat),
      inferRenderAux d vi zs =
        joinWith d ((List.range zs.length).map (pairPos zs vi)) := by
  intro zs
  induction zs with
  | nil => intro vi; rfl
  | cons z tail ih =>
    intro vi
    cases tail with
    | nil =>
      rcases z with ⟨p, c⟩
      cases c <;>
        simp [inferRenderAux, pairPos, joinWith, List.range_succ, List.range_zero]
    | cons z2 rest =>
      have hstep : inferRenderAux d vi (z :: z2 :: rest) =
          (if z.2 then z.1 else colPh vi) ++ d ++
            inferRenderAux d (if z.2 then vi else vi + 1) (z2 :: rest) := by
        rcases z with ⟨p, c⟩
        cases c <;> rfl
      rw [hstep, ih]
      have hne : ((List.range (z2 :: rest).length).map
          (pairPos (z2 :: rest) (if z.2 then vi else vi + 1))) ≠ [] := by
        simp
      rw [show (z :: z2 :: rest).length = (z2 :: rest).length + 1 from rfl,
        List.range_succ_eq_map, List.map_cons, List.map_map,
        joinWith_cons _ _ _ (by simp), pairPos_zero]
      congr 2
      apply List.map_congr_left
      intro i _
      simp only [Function.comp_apply]
      exact (pairPos_succ z (z2 :: rest) (by simp) vi i).symm

/-- `nthD` across a zip of equal-length lists. -/
theorem nthD_zip (parts : List Str) :
    ∀ (isC : List Bool), parts.length = isC.length →
      ∀ i : Nat, nthD ([], true) (parts.zip isC) i =
        (nthD [] parts i, nthD true isC i) := by
  induction parts with
  | nil =>
    intro isC h i
    cases isC with
    | nil => cases i <;> rfl
    | cons y ys => simp at h
  | cons x xs ih =>
    intro isC h i
    cases isC with
    | nil => simp at h
    | cons y ys =>
      cases i with
      | zero => rfl
      | succ j => simpa using ih ys (by simpa using h) j

/-- `pairPos` over the zipped lists is the claim's per-position rule. -/
theorem pairPos_zip (parts : List Str) (isC : List Bool)
    (h : parts.length = isC.length) (i : Nat) :
    pairPos (parts.zip isC) 1 i = specRenderPos parts isC i := by
  have hz : (parts.zip isC).length = parts.length := by
    rw [List.length_zip, h, Nat.min_self]
  unfold pairPos specRenderPos
  rw [hz, nthD_zip parts isC h i]
  have hpred : ∀ j, (!(nthD ([], true) (parts.zip isC) j).2) = !(nthD true isC j) :=
    fun j => by rw [nthD_zip parts isC h j]
  simp only [hpred]

/-- C4 (amended): whenever `infer_pattern` reaches reconstruction (a best
delimiter exists and the first sample splits into at least two parts), the
returned pattern emits each constant position literally and each
non-constant position as a numbered column placeholder with the number
incrementing, except the final position, which is emitted as the attr
placeholder exactly when it is non-constant. -/
theorem c4_infer_amended (samples : List Str)
    (hs : samples ≠ [])
    (hb : bestDelim samples ≠ [])
    (hp : 2 ≤ (splitParts (bestDelim samples) (samples.headD [])).length) :
    inferPattern samples =
      some (specRender (bestDelim samples)
        (splitParts (bestDelim samples) (samples.headD []))
        ((List.range (splitParts (bestDelim samples) (samples.headD [])).length).map
          (isConstantAt samples (bestDelim samples)
            (splitParts (bestDelim samples) (samples.headD []))))) := by
  unfold inferPattern
  rw [if_neg hs]
  simp only
  rw [if_neg hb, if_neg (by omega)]
  congr 1
  rw [inferRenderAux_eq]
  unfold specRender
  have hlen : (splitParts (bestDelim samples) (samples.headD [])).length =
      ((List.range (splitParts (bestDelim samples) (samples.headD [])).length).map
        (isConstantAt samples (bestDelim samples)
          (splitParts (bestDelim samples) (samples.headD [])))).length := by
    simp
  have hz : ((splitParts (bestDelim samples) (samples.headD [])).zip
      ((List.range (splitParts (bestDelim samples) (samples.headD [])).length).map
        (isConstantAt samples (bestDelim samples)
          (splitParts (bestDelim samples) (samples.headD []))))).length =
      (splitParts (bestDelim samples) (samples.headD [])).length := by
    rw [List.length_zip, ← hlen, Nat.min_self]
  rw [hz]
  congr 1
  apply List.map_congr_left
  intro i _
  exact pairPos_zip _ _ hlen i

/-! ### Pattern construction vs the structural invariants (C6) -/

@[simp] theorem phNames_nil : phNames [] = [] := rfl

@[simp] theorem segsOfToks_nil : segsOfToks [] = [] := rfl

@[simp] theorem segsOfToks_cons (t : Tok) (ts : List Tok) :
    segsOfToks (t :: ts) = tokSeg t :: segsOfToks ts := rfl

@[simp] theorem phNames_cons_lit (l : Str) (ts : List Tok) :
    phNames (Tok.lit l :: ts) = phNames ts := rfl

@[simp] theorem phNames_cons_ph (n : Str) (ts : List Tok) :
    phNames (Tok.ph n :: ts) = n :: phNames ts := rfl

@[simp] theorem phNames_consLitTok (c : Str) (ts : List Tok) :
    phNames (consLitTok c ts) = phNames ts := by
  by_cases h : c = [] <;> simp [consLitTok, h]

@[simp] theorem segsOfToks_consLitTok (c : Str) (ts : List Tok) :
    segsOfToks (consLitTok c ts) = flushLit c (segsOfToks ts) := by
  by_cases h : c = [] <;> simp [consLitTok, flushLit, h, segsOfToks, tokSeg]

@[simp] theorem scanOkToks_consLitTok (names : List Str) (hasA : Bool)
    (c : Str) (ts : List Tok) :
    scanOkToks names hasA (consLitTok c ts) = scanOkToks names hasA ts := by
  by_cases h : c = [] <;> simp [consLitTok, h, scanOkToks]

/-- `Except.toOption` through `Except.map`. -/
theorem except_toOption_map {ε α β : Type} (f : α → β) (e : Except ε α) :
    (e.map f).toOption = e.toOption.map f := by
  cases e <;> rfl

/-- The character-level scan succeeds exactly when the string tokenizes
and the token-level checks pass, and then returns the denoted segments. -/
theorem kpScan_toOption :
    ∀ (cs : Str) (mode : Option Str) (curLit : Str) (names : List Str)
      (hasA : Bool),
      (kpScan cs mode curLit names hasA).toOption =
        (tokenizeAux cs mode curLit).bind
          (fun ts => if scanOkToks names hasA ts then some (segsOfToks ts)
            else none) := by
  intro cs
  induction cs with
  | nil =>
    intro mode curLit names hasA
    cases mode with
    | some curName => rfl
    | none => simp [kpScan, tokenizeAux, scanOkToks, Except.toOption]
  | cons c rest ih =>
    intro mode curLit names hasA
    cases mode with
    | some curName =>
      by_cases hc : c = '}'
      · subst hc
        have hk1 : kpScan ('}' :: rest) (some curName) curLit names hasA =
            (if curName = [] then .error .emptyPlaceholder
             else if ¬ curName.all validNameChar then .error .invalidChar
             else if curName = attrStr then
               if hasA then .error .multipleAttr
               else (kpScan rest none [] names true).map fun segs =>
                 flushLit curLit (Seg.attrSeg :: segs)
             else if curName ∈ names then .error .duplicateCapture
             else (kpScan rest none [] (names ++ [curName]) hasA).map fun segs =>
               flushLit curLit (Seg.cap curName :: segs)) := rfl
        have htok : tokenizeAux ('}' :: rest) (some curName) curLit =
            (tokenizeAux rest none []).map
              (fun ts => consLitTok curLit (Tok.ph curName :: ts)) := rfl
        rw [hk1, htok]
        by_cases h1 : curName = []
        · rw [if_pos h1]
          cases htr : tokenizeAux rest none [] <;>
            simp [htr, scanOkToks, h1, Except.toOption]
        · rw [if_neg h1]
          by_cases h2 : curName.all validNameChar
          · rw [if_neg (not_not_intro h2)]
            by_cases h3 : curName = attrStr
            · rw [if_pos h3]
              cases hasA with
              | true =>
                rw [if_pos rfl]
                cases htr : tokenizeAux rest none [] <;>
                  simp [htr, scanOkToks, h1, h2, h3, Except.toOption]
              | false =>
                rw [if_neg (by simp)]
                rw [except_toOption_map, ih none [] names true]
                cases htr : tokenizeAux rest none [] with
                | none => rfl
                | some ts' =>
                  simp only [htr, Option.map_some, Option.map_some',
                    Option.some_bind]
                  by_cases hok : scanOkToks names true ts'
                  · rw [if_pos hok,
                      if_pos (by simp [scanOkToks, h1, h2, h3, hok] <;> decide)]
                    by_cases hcl : curLit = [] <;>
                      simp [flushLit, consLitTok, hcl, tokSeg, h3]
                  · rw [if_neg hok,
                      if_neg (by simp [scanOkToks, h1, h2, h3, hok] <;> decide)]
                    rfl
            · rw [if_neg h3]
              by_cases h4 : curName ∈ names
              · rw [if_pos h4]
                cases htr : tokenizeAux rest none [] <;>
                  simp [htr, scanOkToks, h1, h2, h3, h4, Except.toOption]
              · rw [if_neg h4]
                rw [except_toOption_map, ih none [] (names ++ [curName]) hasA]
                cases htr : tokenizeAux rest none [] with
                | none => rfl
                | some ts' =>
                  simp only [htr, Option.map_some, Option.map_some',
                    Option.some_bind]
                  by_cases hok : scanOkToks (names ++ [curName]) hasA ts'
                  · rw [if_pos hok,
                      if_pos (by simp [scanOkToks, h1, h2, h3, h4, hok])]
                    by_cases hcl : curLit = [] <;>
                      simp [flushLit, consLitTok, hcl, tokSeg, h3]
                  · rw [if_neg hok,
                      if_neg (by
                        simp only [scanOkToks_consLitTok, scanOkToks,
                          if_neg h1, if_neg (not_not_intro h2), if_neg h3,
                          if_neg h4]
                        simp [hok])]
                    rfl
          · rw [if_pos (by simpa using h2)]
            cases htr : tokenizeAux rest none [] <;>
              simp [htr, scanOkToks, h1, h2, Except.toOption]
      · have hk1 : kpScan (c :: rest) (some curName) curLit names hasA =
            kpScan rest (some (curName ++ [c])) curLit names hasA := by
          simp only [kpScan]
          rw [if_neg hc]
        have htok : tokenizeAux (c :: rest) (some curName) curLit =
            tokenizeAux rest (some (curName ++ [c])) curLit := by
          simp only [tokenizeAux]
          rw [if_neg hc]
        rw [hk1, htok]
        exact ih (some (curName ++ [c])) curLit names hasA
    | none =>
      by_cases hc : c = '{'
      · subst hc
        have hk1 : kpScan ('{' :: rest) none curLit names hasA =
            kpScan rest (some []) curLit names hasA := rfl
        have htok : tokenizeAux ('{' :: rest) none curLit =
            tokenizeAux rest (some []) curLit := rfl
        rw [hk1, htok]
        exact ih (some []) curLit names hasA
      · have hk1 : kpScan (c :: rest) none curLit names hasA =
            kpScan rest none (curLit ++ [c]) names hasA := by
          simp only [kpScan]
          rw [if_neg hc]
        have htok : tokenizeAux (c :: rest) none curLit =
            tokenizeAux rest none (curLit ++ [c]) := by
          simp only [tokenizeAux]
          rw [if_neg hc]
        rw [hk1, htok]
        exact ih none (curLit ++ [c]) names hasA

/-- Boolean facts about the special placeholder name. -/
theorem attrStr_checks : (attrStr ≠ [] ∧ attrStr.all validNameChar = true) := by
  constructor <;> decide

/-- Bind on a successful `Except` computation applies the continuation. -/
theorem except_ok_bind {α β : Type} (a : α) (f : α → Except PatternErr β) :
    (Except.ok a >>= f : Except PatternErr β) = f a := rfl

/-- Bind on a failed `Except` computation propagates the error. -/
theorem except_error_bind {α β : Type} (e : PatternErr)
    (f : α → Except PatternErr β) :
    (Except.error e >>= f : Except PatternErr β) = Except.error e := rfl

/-- `namesOk` of a placeholder cons unfolds to the head name's checks
conjoined with `namesOk` of the tail. -/
theorem namesOk_cons_ph (n : Str) (ts : List Tok) :
    namesOk (Tok.ph n :: ts) = ((n ≠ [] && n.all validNameChar) && namesOk ts) := rfl

/-- The token-level scan checks, spelled out as the claim's invariants. -/
theorem scanOkToks_iff :
    ∀ (ts : List Tok) (names : List Str) (hasA : Bool),
      scanOkToks names hasA ts = true ↔
        (namesOk ts = true ∧ (∀ n ∈ tokCapNames ts, n ∉ names) ∧
          (tokCapNames ts).Nodup ∧
          attrPhCount ts + (if hasA then 1 else 0) ≤ 1) := by
  intro ts
  induction ts with
  | nil =>
    intro names hasA
    simp only [scanOkToks, namesOk, tokCapNames, attrPhCount, phNames_nil,
      List.all_nil, List.filter_nil, List.length_nil, List.nodup_nil]
    cases hasA <;> simp
  | cons t ts' ih =>
    intro names hasA
    cases t with
    | lit l =>
      simp only [scanOkToks]
      rw [ih names hasA]
      simp [namesOk, tokCapNames, attrPhCount]
    | ph n =>
      have hstep : scanOkToks names hasA (Tok.ph n :: ts') =
          (if n = [] then false
           else if ¬ n.all validNameChar then false
           else if n = attrStr then
             (if hasA then false else scanOkToks names true ts')
           else if n ∈ names then false
           else scanOkToks (names ++ [n]) hasA ts') := rfl
      by_cases h1 : n = []
      · rw [hstep, if_pos h1]
        subst h1
        constructor
        · intro h; exact absurd h (by decide)
        · rintro ⟨hn, _, _, _⟩
          rw [namesOk_cons_ph] at hn
          simp at hn
      · by_cases h2 : n.all validNameChar
        · have hhead : (n ≠ [] && n.all validNameChar) = true := by
            simp only [Bool.and_eq_true, decide_eq_true_eq, ne_eq]
            exact ⟨h1, h2⟩
          have hN : namesOk (Tok.ph n :: ts') = namesOk ts' := by
            rw [namesOk_cons_ph, hhead, Bool.true_and]
          by_cases h3 : n = attrStr
          · subst h3
            have hC : tokCapNames (Tok.ph attrStr :: ts') = tokCapNames ts' := by
              simp [tokCapNames, List.filter_cons]
            have hA : attrPhCount (Tok.ph attrStr :: ts')
                = attrPhCount ts' + 1 := by
              simp [attrPhCount, List.filter_cons]
            rw [hstep, if_neg h1, if_neg (not_not_intro h2), if_pos rfl,
              hN, hC, hA]
            cases hasA with
            | true =>
              rw [if_pos rfl]
              constructor
              · intro h; exact absurd h (by decide)
              · rintro ⟨_, _, _, hcnt⟩
                simp at hcnt <;> omega
            | false =>
              rw [if_neg (by decide : ¬ (false = true))]
              rw [ih names true]
              constructor
              · rintro ⟨a, b, c, d⟩
                exact ⟨a, b, c, by simp at d ⊢ <;> omega⟩
              · rintro ⟨a, b, c, d⟩
                exact ⟨a, b, c, by simp at d ⊢ <;> omega⟩
          · have hC : tokCapNames (Tok.ph n :: ts')
                = n :: tokCapNames ts' := by
              simp [tokCapNames, List.filter_cons, h3]
            have hA : attrPhCount (Tok.ph n :: ts') = attrPhCount ts' := by
              simp [attrPhCount, List.filter_cons, h3]
            rw [hstep, if_neg h1, if_neg (not_not_intro h2), if_neg h3,
              hN, hC, hA]
            by_cases h4 : n ∈ names
            · rw [if_pos h4]
              constructor
              · intro h; exact absurd h (by decide)
              · rintro ⟨_, hnin, _, _⟩
                exact absurd h4 (hnin n (List.mem_cons_self _ _))
            · rw [if_neg h4]
              rw [ih (names ++ [n]) hasA]
              simp only [List.forall_mem_cons, List.nodup_cons,
                List.mem_append, List.mem_singleton]
              constructor
              · rintro ⟨a, b, c, d⟩
                refine ⟨a, ⟨h4, fun m hm => fun hmn => (b m hm) (Or.inl hmn)⟩,
                  ⟨fun hn => (b n hn) (Or.inr rfl), c⟩, d⟩
              · rintro ⟨a, ⟨_, b2⟩, ⟨c1, c2⟩, d⟩
                refine ⟨a, fun m hm => ?_, c2, d⟩
                rintro (hmn | hmn)
                · exact (b2 m hm) hmn
                · exact c1 (hmn ▸ hm)
        · rw [hstep, if_neg h1, if_pos h2]
          constructor
          · intro h; exact absurd h (by decide)
          · rintro ⟨hn, _, _, _⟩
            exfalso
            rw [namesOk_cons_ph, Bool.and_eq_true, Bool.and_eq_true] at hn
            exact h2 hn.1.2

/-- A token's segment is variable exactly when the token is a placeholder. -/
theorem isVar_tokSeg (t : Tok) : (tokSeg t).isVar = isPh t := by
  cases t with
  | lit l => rfl
  | ph n =>
    simp only [tokSeg, isPh]
    split <;> rfl

/-- The denoted segments contain the attr segment exactly when some
placeholder is named `attr`. -/
theorem hasAttrSeg_segsOfToks (ts : List Tok) :
    hasAttrSeg (segsOfToks ts) = true ↔ 1 ≤ attrPhCount ts := by
  induction ts with
  | nil => simp [segsOfToks, attrPhCount]
  | cons t ts' ih =>
    cases t with
    | lit l =>
      simp only [segsOfToks, List.map_cons, tokSeg]
      rw [show hasAttrSeg (Seg.lit l :: List.map tokSeg ts')
          = hasAttrSeg (List.map tokSeg ts') by simp [hasAttrSeg]]
      rw [show attrPhCount (Tok.lit l :: ts') = attrPhCount ts' from rfl]
      exact ih
    | ph n =>
      by_cases h : n = attrStr
      · subst h
        constructor
        · intro _
          simp [attrPhCount, List.filter_cons]
        · intro _
          simp [hasAttrSeg, segsOfToks, tokSeg]
      · have h1 : hasAttrSeg (segsOfToks (Tok.ph n :: ts'))
            = hasAttrSeg (segsOfToks ts') := by
          simp [hasAttrSeg, segsOfToks, tokSeg, h, Seg.cap]
        have h2 : attrPhCount (Tok.ph n :: ts') = attrPhCount ts' := by
          simp [attrPhCount, List.filter_cons, h]
        rw [h1, h2]
        exact ih

/-- The denoted segments have adjacent variables exactly when the tokens
have adjacent placeholders. -/
theorem noAdjVars_segsOfToks (ts : List Tok) :
    noAdjVars (segsOfToks ts) = noAdjPh ts := by
  induction ts with
  | nil => rfl
  | cons t ts' ih =>
    cases ts' with
    | nil => cases t <;> rfl
    | cons t2 rest =>
      show noAdjVars (tokSeg t :: tokSeg t2 :: segsOfToks rest) = _
      rw [show noAdjVars (tokSeg t :: tokSeg t2 :: segsOfToks rest)
          = (!((tokSeg t).isVar && (tokSeg t2).isVar)
            && noAdjVars (tokSeg t2 :: segsOfToks rest)) from rfl]
      rw [show noAdjPh (t :: t2 :: rest)
          = (!(isPh t && isPh t2) && noAdjPh (t2 :: rest)) from rfl]
      rw [isVar_tokSeg, isVar_tokSeg]
      rw [show (tokSeg t2 :: segsOfToks rest) = segsOfToks (t2 :: rest) from rfl]
      rw [ih]

/-- A non-empty string in literal mode tokenizes to a non-empty token
list. -/
theorem tokenizeAux_nil_imp :
    ∀ (cs : Str) (mode : Option Str) (curLit : Str),
      tokenizeAux cs mode curLit = some [] →
        cs = [] ∧ curLit = [] ∧ mode = none := by
  intro cs
  induction cs with
  | nil =>
    intro mode curLit h
    cases mode with
    | some curName => cases h
    | none =>
      simp only [tokenizeAux, consLitTok, Option.some_inj] at h
      split at h
      · rename_i hcl
        exact ⟨rfl, hcl, rfl⟩
      · cases h
  | cons c rest ih =>
    intro mode curLit h
    cases mode with
    | some curName =>
      simp only [tokenizeAux] at h
      split at h
      · obtain ⟨ts', hts', hcons⟩ := Option.map_eq_some'.mp h
        exfalso
        revert hcons
        unfold consLitTok
        split <;> intro hc <;> cases hc
      · obtain ⟨_, _, hmode⟩ := ih _ _ h
        cases hmode
    | none =>
      simp only [tokenizeAux] at h
      split at h
      · obtain ⟨_, _, hmode⟩ := ih _ _ h
        cases hmode
      · obtain ⟨_, hcl, _⟩ := ih _ _ h
        exact absurd hcl (by simp)

/-- C6: `KeyPattern` construction succeeds exactly on the pattern strings
that satisfy the claim's structural invariants: non-empty, decomposable
into literal runs and brace-delimited placeholders, exactly one `attr`
placeholder, no adjacent placeholders, no duplicate capture names, and
every placeholder name non-empty and alphanumeric-or-underscore;
equivalently, it throws exactly on the strings violating one of them. -/
theorem c6_construction_iff_structOk (s : Str) :
    (mkKeyPattern s).isOk = structOk s := by
  by_cases hs : s = []
  · subst hs
    rfl
  · have hscan := kpScan_toOption s none [] [] false
    have hiff : (mkKeyPattern s).isOk = true ↔ structOk s = true := by
      constructor
      · intro h
        cases hk : kpScan s none [] [] false with
        | error e => simp [mkKeyPattern, hs, hk, except_error_bind, Except.isOk, Except.toBool] at h
        | ok segs =>
          rw [hk] at hscan
          cases hts : tokenize s with
          | none =>
            rw [show tokenize s = tokenizeAux s none [] from rfl] at hts
            rw [hts] at hscan
            cases hscan
          | some ts =>
            rw [show tokenize s = tokenizeAux s none [] from rfl] at hts
            rw [hts] at hscan
            simp only [Option.some_bind, Except.toOption] at hscan
            by_cases hok : scanOkToks [] false ts = true
            · rw [if_pos hok] at hscan
              have hsegs : segs = segsOfToks ts := Option.some_inj.mp hscan
              have hvalid : kpValidate segs = .ok () := by
                cases hv : kpValidate segs with
                | ok u => cases u; rfl
                | error e => simp [mkKeyPattern, hs, hk, hv, except_ok_bind, except_error_bind, Except.isOk, Except.toBool] at h
              obtain ⟨hno, _, hnodup, hcnt⟩ := (scanOkToks_iff ts [] false).mp hok
              simp only [kpValidate] at hvalid
              split at hvalid
              · cases hvalid
              · split at hvalid
                · cases hvalid
                · split at hvalid
                  · cases hvalid
                  · rename_i hne hattr hadj
                    rw [not_not] at hattr hadj
                    have hcount1 : attrPhCount ts = 1 := by
                      have := (hasAttrSeg_segsOfToks ts).mp (by rw [← hsegs]; exact hattr)
                      simp at hcnt
                      omega
                    have hadjPh : noAdjPh ts = true := by
                      rw [← noAdjVars_segsOfToks, ← hsegs]
                      exact hadj
                    simp only [structOk]
                    rw [show tokenize s = tokenizeAux s none [] from rfl, hts]
                    simp [hs, hcount1, hadjPh, hnodup, hno]
            · rw [if_neg hok] at hscan
              cases hscan
      · intro h
        simp only [structOk] at h
        cases hts : tokenize s with
        | none => rw [hts] at h; cases h
        | some ts =>
          rw [hts] at h
          simp only [Bool.and_eq_true, decide_eq_true_eq] at h
          obtain ⟨⟨⟨⟨_, hcnt⟩, hadj⟩, hnodup⟩, hno⟩ := h
          have hok : scanOkToks [] false ts = true :=
            (scanOkToks_iff ts [] false).mpr
              ⟨hno, by simp, by simpa using hnodup, by rw [hcnt]; decide⟩
          rw [show tokenize s = tokenizeAux s none [] from rfl] at hts
          rw [hts] at hscan
          simp only [Option.some_bind, if_pos hok] at hscan
          cases hk : kpScan s none [] [] false with
          | error e => rw [hk] at hscan; cases hscan
          | ok segs =>
            rw [hk] at hscan
            have hsegs : segs = segsOfToks ts := Option.some_inj.mp hscan
            have htsne : ts ≠ [] := by
              intro hnil
              obtain ⟨hcs, _, _⟩ := tokenizeAux_nil_imp s none [] (hnil ▸ hts)
              exact hs hcs
            have hvalid : kpValidate segs = .ok () := by
              simp only [kpValidate]
              rw [if_neg (by
                  rw [hsegs]
                  simpa [segsOfToks] using htsne),
                if_neg (by
                  rw [not_not, hsegs]
                  exact (hasAttrSeg_segsOfToks ts).mpr (by omega)),
                if_neg (by
                  rw [not_not, hsegs, noAdjVars_segsOfToks]
                  exact hadj)]
            simp [mkKeyPattern, hs, hk, hvalid, except_ok_bind, except_error_bind, Except.isOk, Except.toBool]
    cases h1 : (mkKeyPattern s).isOk <;> cases h2 : structOk s <;> simp_all

/-- Witness for C4 (amended) at a two-sample store whose keys share the
`users##` prefix. -/
theorem c4_witness :
    inferPattern ["users##u1##name".toList, "users##u2##email".toList] =
      some (specRender (bestDelim ["users##u1##name".toList, "users##u2##email".toList])
        (splitParts (bestDelim ["users##u1##name".toList, "users##u2##email".toList])
          (["users##u1##name".toList, "users##u2##email".toList].headD []))
        ((List.range (splitParts
            (bestDelim ["users##u1##name".toList, "users##u2##email".toList])
            (["users##u1##name".toList, "users##u2##email".toList].headD [])).length).map
          (isConstantAt ["users##u1##name".toList, "users##u2##email".toList]
            (bestDelim ["users##u1##name".toList, "users##u2##email".toList])
            (splitParts (bestDelim ["users##u1##name".toList, "users##u2##email".toList])
              (["users##u1##name".toList, "users##u2##email".toList].headD []))))) :=
  c4_infer_amended ["users##u1##name".toList, "users##u2##email".toList]
    (by decide) (by decide) (by decide)

end LevelPivot
